import Mathlib

/-!
Verification of the raycaster core (Gumix/cg-experiments, `my-first-raycaster`).

The C++ source is shallowly embedded over the real numbers: `double`
arithmetic becomes exact real arithmetic, the trigonometric functions become
`Real.cos` / `Real.sin`, and the fallible intersection test becomes an
`Option`-returning function.  Integer narrowing conversions of the C++
(`int h = ...`, `round`, `uint8_t b = ...`) are modelled explicitly.
-/

namespace Raycaster

open Real

/-- Linear interpolation of two values (`Mix` in the source). -/
noncomputable def Mix (start stop t : ℝ) : ℝ :=
  start + (stop - start) * t

/-- Map a value from input range to output range (`Map` in the source). -/
noncomputable def MapRange (x in_min in_max out_min out_max : ℝ) : ℝ :=
  (x - in_min) * (out_max - out_min) / (in_max - in_min) + out_min

/-- Degrees to radians: the private `Angle(double deg)` constructor. -/
noncomputable def deg2rad (deg : ℝ) : ℝ :=
  deg * Real.pi / 180

/-- C `round`: round half away from zero, as an integer. -/
noncomputable def cround (x : ℝ) : ℤ :=
  if x < 0 then -⌊-x + 1/2⌋ else ⌊x + 1/2⌋

/-- C/C++ float-to-int conversion: truncation toward zero. -/
noncomputable def ctrunc (x : ℝ) : ℤ :=
  if x < 0 then -⌊-x⌋ else ⌊x⌋

/-- `Vector2(Angle a)`: sets `x = cos a`, `y = sin a` and then normalizes
(divides both components by `sqrt (x*x + y*y)`). -/
noncomputable def dirOfAngle (a : ℝ) : ℝ × ℝ :=
  let x := Real.cos a
  let y := Real.sin a
  let len := Real.sqrt (x * x + y * y)
  (x / len, y / len)

/-- For a direction built from an angle the normalization divides by 1. -/
theorem dirOfAngle_eq (a : ℝ) : dirOfAngle a = (Real.cos a, Real.sin a) := by
  unfold dirOfAngle
  have h : Real.cos a * Real.cos a + Real.sin a * Real.sin a = 1 := by
    have := Real.sin_sq_add_cos_sq a
    nlinarith [this]
  simp [h]

/-- A wall segment: four integer map coordinates (`Wall` in the source). -/
structure Wall where
  x1 : ℤ
  y1 : ℤ
  x2 : ℤ
  y2 : ℤ

/-- A ray: origin point plus an angle, stored in radians (`Ray`). -/
structure Ray where
  x : ℝ
  y : ℝ
  angle : ℝ

/-- The denominator of `Ray::Intersect`, for a ray at `(x, y)` with
direction `(dx, dy)`: `den = nry * nwx - nrx * nwy`. -/
noncomputable def den (dx dy : ℝ) (w : Wall) : ℝ :=
  -dx * ((w.y2 : ℝ) - (w.y1 : ℝ)) - dy * ((w.x1 : ℝ) - (w.x2 : ℝ))

/-- The wall-parameter solution of `Ray::Intersect`:
`tw = -(nrx * (wall.x1 - x) + nry * (wall.y1 - y)) / den`. -/
noncomputable def twVal (x y dx dy : ℝ) (w : Wall) : ℝ :=
  -(dy * ((w.x1 : ℝ) - x) + -dx * ((w.y1 : ℝ) - y)) / den dx dy w

/-- The ray-parameter solution of `Ray::Intersect`:
`tr = -(nwy * (wall.y1 - y) + nwx * (wall.x1 - x)) / den`. -/
noncomputable def trVal (x y dx dy : ℝ) (w : Wall) : ℝ :=
  -(((w.x1 : ℝ) - (w.x2 : ℝ)) * ((w.y1 : ℝ) - y) +
    ((w.y2 : ℝ) - (w.y1 : ℝ)) * ((w.x1 : ℝ) - x)) / den dx dy w

/-- Core of `Ray::Intersect`, after the direction vector has been computed
from the ray's angle: returns `some (tw, tr)` when the test succeeds. -/
noncomputable def intersectD (x y dx dy : ℝ) (w : Wall) : Option (ℝ × ℝ) :=
  if den dx dy w = 0 then none
  else if 0 < twVal x y dx dy w ∧ twVal x y dx dy w < 1 ∧ 0 < trVal x y dx dy w
  then some (twVal x y dx dy w, trVal x y dx dy w)
  else none

/-- `Ray::Intersect`: builds the direction from the angle, then runs the
parametric test. -/
noncomputable def Ray.intersect (r : Ray) (w : Wall) : Option (ℝ × ℝ) :=
  intersectD r.x r.y (dirOfAngle r.angle).1 (dirOfAngle r.angle).2 w

theorem Ray.intersect_def (r : Ray) (w : Wall) :
    r.intersect w =
      intersectD r.x r.y (Real.cos r.angle) (Real.sin r.angle) w := by
  unfold Ray.intersect
  rw [dirOfAngle_eq]

/-- A zero denominator means no intersection is reported. -/
theorem intersectD_den_zero (x y dx dy : ℝ) (w : Wall)
    (h : den dx dy w = 0) : intersectD x y dx dy w = none := by
  unfold intersectD
  rw [if_pos h]

/-- The solved parameters put the ray point on the wall line (x-coordinate). -/
theorem twtr_point_x (x y dx dy : ℝ) (w : Wall) (hden : den dx dy w ≠ 0) :
    x + trVal x y dx dy w * dx =
      (w.x1 : ℝ) + twVal x y dx dy w * ((w.x2 : ℝ) - (w.x1 : ℝ)) := by
  unfold trVal twVal
  set d := den dx dy w with hdd
  field_simp
  rw [hdd]
  unfold den
  ring

/-- The solved parameters put the ray point on the wall line (y-coordinate). -/
theorem twtr_point_y (x y dx dy : ℝ) (w : Wall) (hden : den dx dy w ≠ 0) :
    y + trVal x y dx dy w * dy =
      (w.y1 : ℝ) + twVal x y dx dy w * ((w.y2 : ℝ) - (w.y1 : ℝ)) := by
  unfold trVal twVal
  set d := den dx dy w with hdd
  field_simp
  rw [hdd]
  unfold den
  ring

/-- Any pair of parameters that realize a common point of the ray and the
wall line must be the Cramer solutions, when the denominator is nonzero. -/
theorem twtr_unique (x y dx dy : ℝ) (w : Wall) (tw tr : ℝ)
    (hden : den dx dy w ≠ 0)
    (hex : x + tr * dx = (w.x1 : ℝ) + tw * ((w.x2 : ℝ) - (w.x1 : ℝ)))
    (hey : y + tr * dy = (w.y1 : ℝ) + tw * ((w.y2 : ℝ) - (w.y1 : ℝ))) :
    tw = twVal x y dx dy w ∧ tr = trVal x y dx dy w := by
  unfold den at hden
  constructor
  · unfold twVal den
    rw [eq_div_iff hden]
    linear_combination dx * hey - dy * hex
  · unfold trVal den
    rw [eq_div_iff hden]
    linear_combination ((w.x2 : ℝ) - (w.x1 : ℝ)) * hey -
      ((w.y2 : ℝ) - (w.y1 : ℝ)) * hex

/-- When `intersectD` succeeds, the parametric values satisfy the open-range
conditions and really describe a common point of the ray and the wall line,
and conversely. -/
theorem intersectD_some_iff (x y dx dy : ℝ) (w : Wall) (tw tr : ℝ) :
    intersectD x y dx dy w = some (tw, tr) ↔
      den dx dy w ≠ 0 ∧ 0 < tw ∧ tw < 1 ∧ 0 < tr ∧
      x + tr * dx = (w.x1 : ℝ) + tw * ((w.x2 : ℝ) - (w.x1 : ℝ)) ∧
      y + tr * dy = (w.y1 : ℝ) + tw * ((w.y2 : ℝ) - (w.y1 : ℝ)) := by
  constructor
  · intro h
    unfold intersectD at h
    by_cases hden : den dx dy w = 0
    · rw [if_pos hden] at h
      exact absurd h (by simp)
    · rw [if_neg hden] at h
      by_cases hc : 0 < twVal x y dx dy w ∧ twVal x y dx dy w < 1 ∧
          0 < trVal x y dx dy w
      · rw [if_pos hc] at h
        have h' : twVal x y dx dy w = tw ∧ trVal x y dx dy w = tr := by
          simpa using h
        obtain ⟨h1, h2⟩ := h'
        subst h1
        subst h2
        exact ⟨hden, hc.1, hc.2.1, hc.2.2,
          twtr_point_x x y dx dy w hden, twtr_point_y x y dx dy w hden⟩
      · rw [if_neg hc] at h
        exact absurd h (by simp)
  · rintro ⟨hden, htw0, htw1, htr0, hex, hey⟩
    obtain ⟨h1, h2⟩ := twtr_unique x y dx dy w tw tr hden hex hey
    unfold intersectD
    rw [if_neg hden, if_pos (by rw [← h1, ← h2]; exact ⟨htw0, htw1, htr0⟩),
      ← h1, ← h2]

/-- Per-ray result (`RayHit` in the source). -/
structure RayHit where
  dist : ℝ
  wall_x : ℝ
  wall_y : ℝ

/-- `Player::num_rays`. -/
def num_rays : ℕ := 320

/-- `Player::view_angle`, in degrees. -/
noncomputable def view_angle : ℝ := 60

/-- The caster (`Player` in the source). -/
structure Player where
  x : ℝ
  y : ℝ
  heading : ℝ
  rays : List Ray

/-- The ray-construction loop of `Player::Player`: starting angle `a`,
incremented by `step` (both already in radians) for each of `n` rays. -/
noncomputable def mkRays (x y a step : ℝ) : ℕ → List Ray
  | 0 => []
  | n + 1 => Ray.mk x y a :: mkRays x y (a + step) step n

/-- `Player::Player(x, y)`.  The C++ leaves the `heading` member
default-initialized; it is taken here as the parameter `heading`.  The loop
starts at `heading - view_angle / 2` (degrees converted to radians) and
advances by `view_angle / num_rays` degrees per ray. -/
noncomputable def mkPlayer (x y heading : ℝ) : Player :=
  { x := x, y := y, heading := heading,
    rays := mkRays x y (heading - deg2rad (view_angle / 2))
      (deg2rad (view_angle / (num_rays : ℝ))) num_rays }

/-- `Ray::Rotate`: add the (degree) delta to the ray's angle. -/
noncomputable def Ray.rotate (r : Ray) (da : ℝ) : Ray :=
  { r with angle := r.angle + deg2rad da }

/-- `Ray::MoveTo`. -/
noncomputable def Ray.moveTo (r : Ray) (nx ny : ℝ) : Ray :=
  { r with x := nx, y := ny }

/-- `Player::Rotate`: the same delta is added to the heading and to every
ray's angle. -/
noncomputable def Player.rotate (p : Player) (da : ℝ) : Player :=
  { p with heading := p.heading + deg2rad da,
           rays := p.rays.map (fun r => r.rotate da) }

/-- `Player::Move`: translate along the heading direction and move every
ray's origin to the new position. -/
noncomputable def Player.move (p : Player) (dd : ℝ) : Player :=
  let dir := dirOfAngle p.heading
  let nx := p.x + dir.1 * dd
  let ny := p.y + dir.2 * dd
  { p with x := nx, y := ny, rays := p.rays.map (fun r => r.moveTo nx ny) }

/-- `Player::CanMove`: round the would-be position to integers and test it
against a one-unit margin inside the map; mirrors the two early-return
`if` statements of the source. -/
noncomputable def Player.canMove (p : Player) (dd : ℝ) (mw mh : ℤ) : Prop :=
  let new_x := cround (p.x + (dirOfAngle p.heading).1 * dd)
  let new_y := cround (p.y + (dirOfAngle p.heading).2 * dd)
  ¬(new_x < 1 ∨ new_y < 1) ∧ ¬(new_x ≥ mw - 1 ∨ new_y ≥ mh - 1)

noncomputable instance (p : Player) (dd : ℝ) (mw mh : ℤ) :
    Decidable (p.canMove dd mw mh) := by
  unfold Player.canMove
  infer_instance

/-- One fold step of the wall scan in `Player::CalcRayHits`: keep the
current best hit unless this wall intersects strictly nearer.  The C++
seeds `tr_hit` with `DBL_MAX`; the not-yet-hit state is modelled as
`none`, so the first intersection is always accepted, as in the source. -/
noncomputable def hitStep (r : Ray) (best : Option (Wall × ℝ × ℝ)) (w : Wall) :
    Option (Wall × ℝ × ℝ) :=
  match r.intersect w with
  | none => best
  | some (tw, tr) =>
    match best with
    | none => some (w, tw, tr)
    | some (w0, tw0, tr0) =>
      if tr < tr0 then some (w, tw, tr) else some (w0, tw0, tr0)

/-- The inner loop of `Player::CalcRayHits`: scan all walls left to right,
keeping the nearest valid intersection.  The source records the index
`j_hit` and reads `walls[j_hit]` afterwards; the fold carries the wall
itself. -/
noncomputable def bestHit (r : Ray) (walls : List Wall) : Option (Wall × ℝ × ℝ) :=
  walls.foldl (hitStep r) none

/-- The record pushed for one ray in `Player::CalcRayHits`: fish-eye
corrected distance and the interpolated hit point on the chosen wall. -/
noncomputable def toRayHit (heading : ℝ) (r : Ray) (walls : List Wall) :
    Option RayHit :=
  match bestHit r walls with
  | none => none
  | some (w, tw, tr) =>
    some ⟨tr * Real.cos (r.angle - heading),
      Mix (w.x1 : ℝ) (w.x2 : ℝ) tw, Mix (w.y1 : ℝ) (w.y2 : ℝ) tw⟩

/-- `Player::CalcRayHits`: one pushed record per ray that hit some wall,
in fan order; rays that missed every wall push nothing. -/
noncomputable def Player.calcRayHits (p : Player) (walls : List Wall) :
    List RayHit :=
  p.rays.filterMap (fun r => toRayHit p.heading r walls)

/-- `Scene::Move`: rotation is applied whenever `da` is nonzero; the
translation is applied only when `dd` is nonzero and `CanMove` allows it. -/
noncomputable def sceneMove (p : Player) (da dd : ℝ) (mw mh : ℤ) : Player :=
  let p1 := if da ≠ 0 then p.rotate da else p
  if dd ≠ 0 ∧ p1.canMove dd mw mh then p1.move dd else p1

/-- `Scene::map_width`. -/
def map_width : ℤ := 320

/-- `Scene::map_height`. -/
def map_height : ℤ := 240

theorem hitStep_of_none (r : Ray) (acc : Option (Wall × ℝ × ℝ)) (w : Wall)
    (h : r.intersect w = none) : hitStep r acc w = acc := by
  unfold hitStep
  rw [h]

theorem hitStep_none_iff (r : Ray) (acc : Option (Wall × ℝ × ℝ)) (w₀ : Wall) :
    hitStep r acc w₀ = none ↔ acc = none ∧ r.intersect w₀ = none := by
  unfold hitStep
  cases hI : r.intersect w₀ with
  | none => simp
  | some p =>
    obtain ⟨tw₀, tr₀⟩ := p
    cases acc with
    | none => simp
    | some b =>
      obtain ⟨w0, tw0, tr0⟩ := b
      by_cases hlt : tr₀ < tr0 <;> simp [hlt]

/-- The wall scan reports no hit exactly when no wall intersects (and the
incoming accumulator was empty). -/
theorem bestHitAux_none_iff (r : Ray) (ws : List Wall) :
    ∀ acc, ws.foldl (hitStep r) acc = none ↔
      (acc = none ∧ ∀ w ∈ ws, r.intersect w = none) := by
  induction ws with
  | nil =>
    intro acc
    simp
  | cons w₀ ws ih =>
    intro acc
    rw [List.foldl_cons, ih (hitStep r acc w₀), hitStep_none_iff]
    constructor
    · rintro ⟨⟨h1, h2⟩, h3⟩
      refine ⟨h1, fun w hw => ?_⟩
      rcases List.mem_cons.mp hw with rfl | hw'
      · exact h2
      · exact h3 w hw'
    · rintro ⟨h1, h2⟩
      exact ⟨⟨h1, h2 w₀ (List.mem_cons_self w₀ ws)⟩,
        fun w hw => h2 w (List.mem_cons_of_mem _ hw)⟩

/-- `Player::CalcRayHits` records no hit for a ray exactly when no wall
intersects it. -/
theorem bestHit_none_iff (r : Ray) (walls : List Wall) :
    bestHit r walls = none ↔ ∀ w ∈ walls, r.intersect w = none := by
  unfold bestHit
  rw [bestHitAux_none_iff]
  simp

/-- Structure of a successful wall scan, generalized over the incoming
accumulator: the result is either the untouched accumulator (every hit in
the list being no nearer) or a hit in the list that strictly beats the
accumulator and every hit before it, and is no farther than any hit after
it. -/
theorem bestHitAux_some (r : Ray) (ws : List Wall) :
    ∀ (acc : Option (Wall × ℝ × ℝ)) (w : Wall) (tw tr : ℝ),
    ws.foldl (hitStep r) acc = some (w, tw, tr) →
    (acc = some (w, tw, tr) ∧
      ∀ w' ∈ ws, ∀ tw' tr' : ℝ, r.intersect w' = some (tw', tr') → tr ≤ tr') ∨
    (∃ pre post, ws = pre ++ w :: post ∧ r.intersect w = some (tw, tr) ∧
      (∀ b : Wall × ℝ × ℝ, acc = some b → tr < b.2.2) ∧
      (∀ w' ∈ pre, ∀ tw' tr' : ℝ, r.intersect w' = some (tw', tr') → tr < tr') ∧
      (∀ w' ∈ post, ∀ tw' tr' : ℝ, r.intersect w' = some (tw', tr') → tr ≤ tr')) := by
  induction ws with
  | nil =>
    intro acc w tw tr h
    exact Or.inl ⟨h, by simp⟩
  | cons w₀ ws ih =>
    intro acc w tw tr h
    rw [List.foldl_cons] at h
    rcases ih (hitStep r acc w₀) w tw tr h with
      ⟨ha, hbound⟩ | ⟨pre, post, hws, hint, hacc, hpre, hpost⟩
    · -- the accumulator coming out of `w₀` survived the rest of the scan
      cases hI : r.intersect w₀ with
      | none =>
        rw [hitStep_of_none r acc w₀ hI] at ha
        refine Or.inl ⟨ha, fun w' hw' tw' tr' hi' => ?_⟩
        rcases List.mem_cons.mp hw' with rfl | hw''
        · rw [hI] at hi'
          exact absurd hi' (by simp)
        · exact hbound w' hw'' tw' tr' hi'
      | some p =>
        obtain ⟨tw₀, tr₀⟩ := p
        cases hA : acc with
        | none =>
          have hs : hitStep r acc w₀ = some (w₀, tw₀, tr₀) := by
            unfold hitStep
            rw [hI, hA]
          rw [hs] at ha
          have ha' : w₀ = w ∧ tw₀ = tw ∧ tr₀ = tr := by simpa using ha
          obtain ⟨rfl, rfl, rfl⟩ := ha'
          refine Or.inr ⟨[], ws, by simp, hI, ?_, by simp, hbound⟩
          intro b hb
          simp at hb
        | some b =>
          obtain ⟨wa, twa, tra⟩ := b
          by_cases hlt : tr₀ < tra
          · have hs : hitStep r acc w₀ = some (w₀, tw₀, tr₀) := by
              unfold hitStep
              rw [hI, hA]
              simp [hlt]
            rw [hs] at ha
            have ha' : w₀ = w ∧ tw₀ = tw ∧ tr₀ = tr := by simpa using ha
            obtain ⟨rfl, rfl, rfl⟩ := ha'
            refine Or.inr ⟨[], ws, by simp, hI, ?_, by simp, hbound⟩
            intro b hb
            obtain rfl := Option.some.inj hb
            exact hlt
          · have hs : hitStep r acc w₀ = some (wa, twa, tra) := by
              unfold hitStep
              rw [hI, hA]
              simp [hlt]
            rw [hs] at ha
            have ha' : wa = w ∧ twa = tw ∧ tra = tr := by simpa using ha
            obtain ⟨rfl, rfl, rfl⟩ := ha'
            refine Or.inl ⟨rfl, fun w' hw' tw' tr' hi' => ?_⟩
            rcases List.mem_cons.mp hw' with rfl | hw''
            · rw [hI] at hi'
              have heq : tw₀ = tw' ∧ tr₀ = tr' := by simpa using hi'
              rw [← heq.2]
              exact le_of_not_lt hlt
            · exact hbound w' hw'' tw' tr' hi'
    · -- the winner lies in `ws`; it extends to a winner of `w₀ :: ws`
      refine Or.inr ⟨w₀ :: pre, post, by rw [hws]; rfl, hint, ?_, ?_, hpost⟩
      · intro b hb
        cases hI : r.intersect w₀ with
        | none =>
          exact hacc b ((hitStep_of_none r acc w₀ hI).trans hb)
        | some p =>
          obtain ⟨tw₀, tr₀⟩ := p
          obtain ⟨b1, b2, b3⟩ := b
          by_cases hlt : tr₀ < b3
          · have hs : hitStep r acc w₀ = some (w₀, tw₀, tr₀) := by
              unfold hitStep
              rw [hI, hb]
              simp [hlt]
            have := hacc (w₀, tw₀, tr₀) hs
            exact lt_trans this hlt
          · have hs : hitStep r acc w₀ = some (b1, b2, b3) := by
              unfold hitStep
              rw [hI, hb]
              simp [hlt]
            exact hacc (b1, b2, b3) hs
      · intro w' hw' tw' tr' hi'
        rcases List.mem_cons.mp hw' with rfl | hw''
        · cases hA : acc with
          | none =>
            have hs : hitStep r acc w' = some (w', tw', tr') := by
              unfold hitStep
              rw [hi', hA]
            exact hacc (w', tw', tr') hs
          | some b =>
            obtain ⟨wa, twa, tra⟩ := b
            by_cases hlt : tr' < tra
            · have hs : hitStep r acc w' = some (w', tw', tr') := by
                unfold hitStep
                rw [hi', hA]
                simp [hlt]
              exact hacc (w', tw', tr') hs
            · have hs : hitStep r acc w' = some (wa, twa, tra) := by
                unfold hitStep
                rw [hi', hA]
                simp [hlt]
              have := hacc (wa, twa, tra) hs
              exact lt_of_lt_of_le this (le_of_not_lt hlt)
        · exact hpre w' hw'' tw' tr' hi'

/-- The wall chosen by the scan is a genuine intersection, strictly nearer
than every hit encountered before it and no farther than any hit after it. -/
theorem bestHit_some_spec (r : Ray) (walls : List Wall) (w : Wall) (tw tr : ℝ)
    (h : bestHit r walls = some (w, tw, tr)) :
    ∃ pre post, walls = pre ++ w :: post ∧ r.intersect w = some (tw, tr) ∧
      (∀ w' ∈ pre, ∀ tw' tr' : ℝ, r.intersect w' = some (tw', tr') → tr < tr') ∧
      (∀ w' ∈ post, ∀ tw' tr' : ℝ, r.intersect w' = some (tw', tr') → tr ≤ tr') := by
  unfold bestHit at h
  rcases bestHitAux_some r walls none w tw tr h with ⟨ha, -⟩ |
    ⟨pre, post, h1, h2, -, h4, h5⟩
  · exact absurd ha (by simp)
  · exact ⟨pre, post, h1, h2, h4, h5⟩

/-- A successful intersection always carries a positive ray parameter. -/
theorem intersect_tr_pos (r : Ray) (w : Wall) (tw tr : ℝ)
    (h : r.intersect w = some (tw, tr)) : 0 < tr := by
  rw [Ray.intersect_def] at h
  exact ((intersectD_some_iff _ _ _ _ _ _ _).mp h).2.2.2.1

/-- The winning ray parameter of the wall scan is positive. -/
theorem bestHit_tr_pos (r : Ray) (walls : List Wall) (w : Wall) (tw tr : ℝ)
    (h : bestHit r walls = some (w, tw, tr)) : 0 < tr := by
  obtain ⟨pre, post, -, h2, -, -⟩ := bestHit_some_spec r walls w tw tr h
  exact intersect_tr_pos r w tw tr h2

/-- `toRayHit` reports nothing exactly when the wall scan reports nothing. -/
theorem toRayHit_none_iff (heading : ℝ) (r : Ray) (walls : List Wall) :
    toRayHit heading r walls = none ↔ bestHit r walls = none := by
  unfold toRayHit
  cases h : bestHit r walls with
  | none => simp
  | some b =>
    obtain ⟨w, tw, tr⟩ := b
    simp

/-- `toRayHit` on a successful scan records the corrected distance and the
interpolated hit point. -/
theorem toRayHit_of_bestHit (heading : ℝ) (r : Ray) (walls : List Wall)
    (w : Wall) (tw tr : ℝ) (h : bestHit r walls = some (w, tw, tr)) :
    toRayHit heading r walls =
      some ⟨tr * Real.cos (r.angle - heading),
        Mix (w.x1 : ℝ) (w.x2 : ℝ) tw, Mix (w.y1 : ℝ) (w.y2 : ℝ) tw⟩ := by
  unfold toRayHit
  rw [h]

/-- C1: `Ray::Intersect` returns a hit exactly when the ray and the wall
line cross at parameters `t_wall` strictly inside the open interval (0, 1)
and `t_ray` strictly positive (no upper bound), and a denominator of
exactly zero always yields the defined no-intersection result. -/
theorem claim_C1 (r : Ray) (w : Wall) :
    (den (Real.cos r.angle) (Real.sin r.angle) w = 0 → r.intersect w = none) ∧
    (∀ tw tr : ℝ, r.intersect w = some (tw, tr) ↔
      (den (Real.cos r.angle) (Real.sin r.angle) w ≠ 0 ∧
       0 < tw ∧ tw < 1 ∧ 0 < tr ∧
       r.x + tr * Real.cos r.angle =
         (w.x1 : ℝ) + tw * ((w.x2 : ℝ) - (w.x1 : ℝ)) ∧
       r.y + tr * Real.sin r.angle =
         (w.y1 : ℝ) + tw * ((w.y2 : ℝ) - (w.y1 : ℝ)))) := by
  constructor
  · intro h
    rw [Ray.intersect_def]
    exact intersectD_den_zero _ _ _ _ _ h
  · intro tw tr
    rw [Ray.intersect_def]
    exact intersectD_some_iff _ _ _ _ _ tw tr

/-- Witness for C1: a ray pointing along the top boundary wall has a zero
denominator and reports no intersection. -/
theorem claim_C1_witness :
    Ray.intersect ⟨160, 120, 0⟩ ⟨0, 0, 319, 0⟩ = none := by
  apply (claim_C1 ⟨160, 120, 0⟩ ⟨0, 0, 319, 0⟩).1
  simp [den, Real.cos_zero, Real.sin_zero]

/-- C2: per ray, the wall scan records no hit exactly when no wall
intersects; a recorded hit is a genuine intersection that is strictly
nearer than every earlier hit (first-encountered wall wins ties) and no
farther than any later hit, and the pushed record holds the corrected
distance and the interpolated hit point of that wall. -/
theorem claim_C2 (p : Player) (walls : List Wall) (r : Ray) :
    (toRayHit p.heading r walls = none ↔
      ∀ w ∈ walls, r.intersect w = none) ∧
    (∀ (w : Wall) (tw tr : ℝ), bestHit r walls = some (w, tw, tr) →
      (∃ pre post, walls = pre ++ w :: post ∧
        r.intersect w = some (tw, tr) ∧
        (∀ w' ∈ pre, ∀ tw' tr' : ℝ,
          r.intersect w' = some (tw', tr') → tr < tr') ∧
        (∀ w' ∈ post, ∀ tw' tr' : ℝ,
          r.intersect w' = some (tw', tr') → tr ≤ tr')) ∧
      toRayHit p.heading r walls =
        some ⟨tr * Real.cos (r.angle - p.heading),
          Mix (w.x1 : ℝ) (w.x2 : ℝ) tw, Mix (w.y1 : ℝ) (w.y2 : ℝ) tw⟩) := by
  refine ⟨?_, ?_⟩
  · rw [toRayHit_none_iff, bestHit_none_iff]
  · intro w tw tr h
    exact ⟨bestHit_some_spec r walls w tw tr h,
      toRayHit_of_bestHit p.heading r walls w tw tr h⟩

/-- Witness for C2: with no walls at all, the scan records no hit. -/
theorem claim_C2_witness :
    toRayHit (Player.mk 160 120 0 []).heading ⟨160, 120, 0⟩ [] = none :=
  ((claim_C2 (Player.mk 160 120 0 []) [] ⟨160, 120, 0⟩).1).mpr (by simp)

/-- A sequence of `Player::Rotate` calls, applied left to right. -/
noncomputable def rotateSeq (p : Player) : List ℝ → Player
  | [] => p
  | da :: das => rotateSeq (p.rotate da) das

theorem mkRays_length (x y a step : ℝ) (n : ℕ) :
    (mkRays x y a step n).length = n := by
  induction n generalizing a with
  | zero => rfl
  | succ n ih => simp [mkRays, ih]

/-- Closed form of the ray-construction loop: ray `i` starts at the
initial angle plus `i` steps. -/
theorem mkRays_getElem (x y a step : ℝ) (n i : ℕ) (hi : i < n) :
    (mkRays x y a step n)[i]? = some ⟨x, y, a + i * step⟩ := by
  induction n generalizing a i with
  | zero => exact absurd hi (Nat.not_lt_zero i)
  | succ n ih =>
    cases i with
    | zero =>
      simp [mkRays]
    | succ i =>
      rw [mkRays, List.getElem?_cons_succ, ih (a + step) i (by omega)]
      refine congrArg some ?_
      refine congrArg (Ray.mk x y) ?_
      push_cast
      ring

/-- Each rotation moves every ray's angle by exactly the delta applied to
the heading, so the offset of each ray from the heading is invariant. -/
theorem rotateSeq_offset (das : List ℝ) :
    ∀ (p : Player) (i : ℕ) (r : Ray), (p.rays)[i]? = some r →
    ∃ r', ((rotateSeq p das).rays)[i]? = some r' ∧
      r'.angle - (rotateSeq p das).heading = r.angle - p.heading := by
  induction das with
  | nil =>
    intro p i r h
    exact ⟨r, h, rfl⟩
  | cons da das ih =>
    intro p i r h
    have h1 : ((p.rotate da).rays)[i]? = some (r.rotate da) := by
      unfold Player.rotate
      simp [h]
    obtain ⟨r', h2, h3⟩ := ih (p.rotate da) i (r.rotate da) h1
    rw [show rotateSeq p (da :: das) = rotateSeq (p.rotate da) das from rfl]
    refine ⟨r', h2, ?_⟩
    rw [h3]
    unfold Player.rotate Ray.rotate
    simp

/-- C9: at construction the rays' angular offsets from the heading are
evenly spaced, `-view_angle/2 + i * (view_angle/num_rays)`, and after any
sequence of `Player::Rotate` calls each ray's angle minus the heading
still equals that original offset. -/
theorem claim_C9 (x y h : ℝ) (das : List ℝ) (i : ℕ) (hi : i < num_rays) :
    ∃ r, ((rotateSeq (mkPlayer x y h) das).rays)[i]? = some r ∧
      r.angle - (rotateSeq (mkPlayer x y h) das).heading =
        -deg2rad (view_angle / 2) + i * deg2rad (view_angle / (num_rays : ℝ)) := by
  have h0 : ((mkPlayer x y h).rays)[i]? =
      some ⟨x, y, (h - deg2rad (view_angle / 2)) +
        i * deg2rad (view_angle / (num_rays : ℝ))⟩ := by
    unfold mkPlayer
    exact mkRays_getElem _ _ _ _ _ i hi
  obtain ⟨r', h2, h3⟩ := rotateSeq_offset das (mkPlayer x y h) i _ h0
  refine ⟨r', h2, ?_⟩
  rw [h3]
  show _ - (mkPlayer x y h).heading = _
  unfold mkPlayer
  ring

/-- Witness for C9: the first ray of a freshly built fan sits at offset
`-view_angle/2` from the heading. -/
theorem claim_C9_witness :
    ∃ r, ((rotateSeq (mkPlayer 0 0 0) []).rays)[0]? = some r ∧
      r.angle - (rotateSeq (mkPlayer 0 0 0) []).heading =
        -deg2rad (view_angle / 2) +
          (0 : ℕ) * deg2rad (view_angle / (num_rays : ℝ)) :=
  claim_C9 0 0 0 [] 0 (by decide)

theorem filterMap_length_eq_filter (f : Ray → Option RayHit) (l : List Ray) :
    (l.filterMap f).length = (l.filter (fun a => (f a).isSome)).length := by
  induction l with
  | nil => rfl
  | cons a l ih =>
    cases h : f a with
    | none => simp [List.filterMap_cons, List.filter_cons, h, ih]
    | some b => simp [List.filterMap_cons, List.filter_cons, h, ih]

/-- Position `i` of the filtered ray list corresponds to position `i` of
the `filterMap` result. -/
theorem filterMap_index (f : Ray → Option RayHit) (l : List Ray) :
    ∀ (i : ℕ) (r : Ray),
      (l.filter (fun a => (f a).isSome))[i]? = some r →
      (l.filterMap f)[i]? = f r := by
  induction l with
  | nil =>
    intro i r h
    simp at h
  | cons a l ih =>
    intro i r h
    cases hf : f a with
    | none =>
      rw [List.filter_cons, if_neg (by simp [hf])] at h
      rw [List.filterMap_cons, hf]
      exact ih i r h
    | some b =>
      rw [List.filter_cons, if_pos (by simp [hf])] at h
      rw [List.filterMap_cons, hf]
      cases i with
      | zero =>
        rw [List.getElem?_cons_zero] at h
        obtain rfl := Option.some.inj h
        rw [List.getElem?_cons_zero, hf]
      | succ i =>
        rw [List.getElem?_cons_succ] at h
        rw [List.getElem?_cons_succ]
        exact ih i r h

/-- C10: `Player::CalcRayHits` returns one entry per hitting ray and no
placeholder for misses: the result length equals the number of hitting
rays (at most `num_rays` for the actual fan), and the `i`-th entry is the
record of the `i`-th hitting ray in fan order. -/
theorem claim_C10 (p : Player) (walls : List Wall) (x y h : ℝ) :
    ((p.calcRayHits walls).length =
      (p.rays.filter
        (fun r => (toRayHit p.heading r walls).isSome)).length) ∧
    (∀ (i : ℕ) (r : Ray),
      (p.rays.filter
        (fun r => (toRayHit p.heading r walls).isSome))[i]? = some r →
      (p.calcRayHits walls)[i]? = toRayHit p.heading r walls) ∧
    ((mkPlayer x y h).calcRayHits walls).length ≤ num_rays := by
  refine ⟨filterMap_length_eq_filter _ _, ?_, ?_⟩
  · intro i r hr
    exact filterMap_index _ _ i r hr
  · calc ((mkPlayer x y h).calcRayHits walls).length
        ≤ (mkPlayer x y h).rays.length := List.length_filterMap_le _ _
      _ = num_rays := by unfold mkPlayer; exact mkRays_length _ _ _ _ _

/-- The spec's end-to-end check, used as witness data: a ray cast straight
ahead from the map center intersects the right boundary wall at `x = 319`
with ray parameter `159`. -/
theorem demo_intersect :
    Ray.intersect ⟨160, 120, 0⟩ ⟨319, 0, 319, 239⟩ = some (120 / 239, 159) := by
  rw [Ray.intersect_def]
  unfold intersectD twVal trVal den
  rw [Real.cos_zero, Real.sin_zero]
  norm_num

theorem demo_bestHit :
    bestHit ⟨160, 120, 0⟩ [⟨319, 0, 319, 239⟩] =
      some (⟨319, 0, 319, 239⟩, 120 / 239, 159) := by
  unfold bestHit
  rw [List.foldl_cons, List.foldl_nil]
  unfold hitStep
  rw [demo_intersect]

theorem demo_toRayHit :
    toRayHit 0 ⟨160, 120, 0⟩ [⟨319, 0, 319, 239⟩] = some ⟨159, 319, 120⟩ := by
  unfold toRayHit
  rw [demo_bestHit]
  refine congrArg some ?_
  unfold Mix
  norm_num

/-- Witness for C10: a one-ray fan whose single ray hits the right
boundary wall produces exactly that ray's record at position 0. -/
theorem claim_C10_witness :
    ((Player.mk 160 120 0 [⟨160, 120, 0⟩]).calcRayHits
      [⟨319, 0, 319, 239⟩])[0]? =
      toRayHit (Player.mk 160 120 0 [⟨160, 120, 0⟩]).heading ⟨160, 120, 0⟩
        [⟨319, 0, 319, 239⟩] :=
  (claim_C10 (Player.mk 160 120 0 [⟨160, 120, 0⟩]) [⟨319, 0, 319, 239⟩]
    0 0 0).2.1 0 ⟨160, 120, 0⟩
    (by rw [List.filter_cons, if_pos (by rw [demo_toRayHit]; rfl)]
        rfl)

/-- On `[-π, π]`, the cosine of a nonzero angle is strictly below 1. -/
theorem cos_offset_lt_one (θ : ℝ) (h0 : θ ≠ 0) (hl : -Real.pi ≤ θ)
    (hr : θ ≤ Real.pi) : Real.cos θ < 1 := by
  rcases lt_or_gt_of_ne h0 with hneg | hpos
  · have h1 : Real.cos (-θ) < Real.cos 0 :=
      Real.cos_lt_cos_of_nonneg_of_le_pi (le_refl 0) (by linarith) (by linarith)
    rw [Real.cos_neg, Real.cos_zero] at h1
    exact h1
  · have h1 : Real.cos θ < Real.cos 0 :=
      Real.cos_lt_cos_of_nonneg_of_le_pi (le_refl 0) hr hpos
    rw [Real.cos_zero] at h1
    exact h1

/-- C3: the recorded distance is the raw ray parameter times the cosine of
the ray's angular offset from the heading; for the center ray of the fan
(index 160, offset 0) the corrected distance equals the raw distance, and
for the outermost rays (indices 0 and `num_rays - 1`) it is strictly
smaller. -/
theorem claim_C3 (x y h : ℝ) (walls : List Wall) :
    (∀ (heading : ℝ) (r : Ray) (w : Wall) (tw tr : ℝ),
      bestHit r walls = some (w, tw, tr) →
      ∃ hit, toRayHit heading r walls = some hit ∧
        hit.dist = tr * Real.cos (r.angle - heading)) ∧
    (∀ r : Ray, ((mkPlayer x y h).rays)[160]? = some r →
      ∀ (w : Wall) (tw tr : ℝ), bestHit r walls = some (w, tw, tr) →
      ∃ hit, toRayHit h r walls = some hit ∧ hit.dist = tr) ∧
    (∀ i : ℕ, (i = 0 ∨ i = num_rays - 1) →
      ∀ r : Ray, ((mkPlayer x y h).rays)[i]? = some r →
      ∀ (w : Wall) (tw tr : ℝ), bestHit r walls = some (w, tw, tr) →
      ∃ hit, toRayHit h r walls = some hit ∧ hit.dist < tr) := by
  refine ⟨?_, ?_, ?_⟩
  · intro heading r w tw tr hB
    exact ⟨_, toRayHit_of_bestHit heading r walls w tw tr hB, rfl⟩
  · intro r hr w tw tr hB
    have h160 : ((mkPlayer x y h).rays)[160]? =
        some ⟨x, y, (h - deg2rad (view_angle / 2)) +
          (160 : ℕ) * deg2rad (view_angle / (num_rays : ℝ))⟩ := by
      unfold mkPlayer
      exact mkRays_getElem _ _ _ _ _ 160 (by norm_num [num_rays])
    rw [h160] at hr
    obtain rfl := Option.some.inj hr
    refine ⟨_, toRayHit_of_bestHit h _ walls w tw tr hB, ?_⟩
    show tr * Real.cos ((h - deg2rad (view_angle / 2)) +
      (160 : ℕ) * deg2rad (view_angle / (num_rays : ℝ)) - h) = tr
    rw [show (h - deg2rad (view_angle / 2)) +
        (160 : ℕ) * deg2rad (view_angle / (num_rays : ℝ)) - h = 0 from by
      unfold deg2rad view_angle num_rays
      push_cast
      ring]
    rw [Real.cos_zero, mul_one]
  · intro i hi r hr w tw tr hB
    have htr : 0 < tr := bestHit_tr_pos _ walls w tw tr hB
    rcases hi with rfl | rfl
    · have h0 : ((mkPlayer x y h).rays)[0]? =
          some ⟨x, y, (h - deg2rad (view_angle / 2)) +
            (0 : ℕ) * deg2rad (view_angle / (num_rays : ℝ))⟩ := by
        unfold mkPlayer
        exact mkRays_getElem _ _ _ _ _ 0 (by norm_num [num_rays])
      rw [h0] at hr
      obtain rfl := Option.some.inj hr
      refine ⟨_, toRayHit_of_bestHit h _ walls w tw tr hB, ?_⟩
      show tr * Real.cos ((h - deg2rad (view_angle / 2)) +
        (0 : ℕ) * deg2rad (view_angle / (num_rays : ℝ)) - h) < tr
      rw [show (h - deg2rad (view_angle / 2)) +
          (0 : ℕ) * deg2rad (view_angle / (num_rays : ℝ)) - h =
          -(Real.pi / 6) from by
        unfold deg2rad view_angle
        push_cast
        ring]
      have hcos : Real.cos (-(Real.pi / 6)) < 1 := by
        apply cos_offset_lt_one
        · have := Real.pi_pos
          intro hc
          nlinarith
        · linarith [Real.pi_pos]
        · linarith [Real.pi_pos]
      calc tr * Real.cos (-(Real.pi / 6)) < tr * 1 :=
            mul_lt_mul_of_pos_left hcos htr
        _ = tr := mul_one tr
    · have hlast : ((mkPlayer x y h).rays)[num_rays - 1]? =
          some ⟨x, y, (h - deg2rad (view_angle / 2)) +
            ((num_rays - 1 : ℕ) : ℝ) * deg2rad (view_angle / (num_rays : ℝ))⟩ := by
        unfold mkPlayer
        exact mkRays_getElem _ _ _ _ _ (num_rays - 1) (by norm_num [num_rays])
      rw [hlast] at hr
      obtain rfl := Option.some.inj hr
      refine ⟨_, toRayHit_of_bestHit h _ walls w tw tr hB, ?_⟩
      show tr * Real.cos ((h - deg2rad (view_angle / 2)) +
        ((num_rays - 1 : ℕ) : ℝ) * deg2rad (view_angle / (num_rays : ℝ)) - h) < tr
      rw [show (h - deg2rad (view_angle / 2)) +
          ((num_rays - 1 : ℕ) : ℝ) * deg2rad (view_angle / (num_rays : ℝ)) - h =
          53 * Real.pi / 320 from by
        unfold deg2rad view_angle num_rays
        push_cast
        ring]
      have hcos : Real.cos (53 * Real.pi / 320) < 1 := by
        apply cos_offset_lt_one
        · have := Real.pi_pos
          intro hc
          nlinarith
        · linarith [Real.pi_pos]
        · linarith [Real.pi_pos]
      calc tr * Real.cos (53 * Real.pi / 320) < tr * 1 :=
            mul_lt_mul_of_pos_left hcos htr
        _ = tr := mul_one tr

/-- Witness for C3: the straight-ahead demo hit records distance
`159 * cos 0`. -/
theorem claim_C3_witness :
    ∃ hit, toRayHit 0 ⟨160, 120, 0⟩ [⟨319, 0, 319, 239⟩] = some hit ∧
      hit.dist = 159 * Real.cos ((0 : ℝ) - 0) :=
  (claim_C3 160 120 0 [⟨319, 0, 319, 239⟩]).1 0 ⟨160, 120, 0⟩
    ⟨319, 0, 319, 239⟩ (120 / 239) 159 demo_bestHit

theorem canMove_def (p : Player) (dd : ℝ) (mw mh : ℤ) :
    p.canMove dd mw mh ↔
      (¬(cround (p.x + (dirOfAngle p.heading).1 * dd) < 1 ∨
         cround (p.y + (dirOfAngle p.heading).2 * dd) < 1) ∧
       ¬(cround (p.x + (dirOfAngle p.heading).1 * dd) ≥ mw - 1 ∨
         cround (p.y + (dirOfAngle p.heading).2 * dd) ≥ mh - 1)) :=
  Iff.rfl

theorem sceneMove_def (p : Player) (da dd : ℝ) (mw mh : ℤ) :
    sceneMove p da dd mw mh =
      if dd ≠ 0 ∧ (if da ≠ 0 then p.rotate da else p).canMove dd mw mh
      then (if da ≠ 0 then p.rotate da else p).move dd
      else (if da ≠ 0 then p.rotate da else p) :=
  rfl

/-- With no rotation, a rejected translation leaves the player untouched. -/
theorem sceneMove_reject (p : Player) (dd : ℝ) (mw mh : ℤ)
    (h : ¬p.canMove dd mw mh) : sceneMove p 0 dd mw mh = p := by
  have h0 : (if (0 : ℝ) ≠ 0 then p.rotate 0 else p) = p :=
    if_neg (fun hc => hc rfl)
  rw [sceneMove_def, h0, if_neg (fun hc => h hc.2)]

/-- With no rotation, an accepted translation applies `Player::Move`. -/
theorem sceneMove_accept (p : Player) (dd : ℝ) (mw mh : ℤ)
    (h1 : dd ≠ 0) (h2 : p.canMove dd mw mh) :
    sceneMove p 0 dd mw mh = p.move dd := by
  have h0 : (if (0 : ℝ) ≠ 0 then p.rotate 0 else p) = p :=
    if_neg (fun hc => hc rfl)
  rw [sceneMove_def, h0, if_pos ⟨h1, h2⟩]

/-- Evaluation rule for `cround` on a nonnegative argument. -/
theorem cround_eval (x : ℝ) (z : ℤ) (h0 : 0 ≤ x) (h1 : (z : ℝ) ≤ x + 1 / 2)
    (h2 : x + 1 / 2 < z + 1) : cround x = z := by
  unfold cround
  rw [if_neg (not_lt.mpr h0)]
  exact Int.floor_eq_iff.mpr ⟨h1, h2⟩

/-- C7: `Player::CanMove` accepts exactly when the rounded target position
lies in the one-unit interior margin (coordinates between 1 and the map
dimension minus 2); with no rotation requested, a rejected translation
leaves the player bit-for-bit unchanged and an accepted one applies the
move; a caster at (1,1) with displacement (-1,-1) is rejected and kept in
place, while displacement (+1,0) is accepted on the actual map. -/
theorem claim_C7 (p : Player) (dd : ℝ) (mw mh : ℤ) :
    (p.canMove dd mw mh ↔
      (1 ≤ cround (p.x + (dirOfAngle p.heading).1 * dd) ∧
       cround (p.x + (dirOfAngle p.heading).1 * dd) ≤ mw - 2 ∧
       1 ≤ cround (p.y + (dirOfAngle p.heading).2 * dd) ∧
       cround (p.y + (dirOfAngle p.heading).2 * dd) ≤ mh - 2)) ∧
    (¬p.canMove dd mw mh → sceneMove p 0 dd mw mh = p) ∧
    (dd ≠ 0 → p.canMove dd mw mh → sceneMove p 0 dd mw mh = p.move dd) ∧
    (∀ q : Player, q.x = 1 → q.y = 1 →
      (dirOfAngle q.heading).1 * dd = -1 → (dirOfAngle q.heading).2 * dd = -1 →
      ¬q.canMove dd map_width map_height ∧
        sceneMove q 0 dd map_width map_height = q) ∧
    (∀ q : Player, q.x = 1 → q.y = 1 →
      (dirOfAngle q.heading).1 * dd = 1 → (dirOfAngle q.heading).2 * dd = 0 →
      q.canMove dd map_width map_height) := by
  refine ⟨?_, sceneMove_reject p dd mw mh, sceneMove_accept p dd mw mh,
    ?_, ?_⟩
  · rw [canMove_def]
    constructor
    · intro ⟨ha, hb⟩
      push_neg at ha hb
      omega
    · intro ⟨h1, h2, h3, h4⟩
      constructor
      · push_neg
        omega
      · push_neg
        omega
  · intro q h1 h2 h3 h4
    have hx : cround (q.x + (dirOfAngle q.heading).1 * dd) = 0 := by
      rw [h1, h3]
      exact cround_eval _ 0 (by norm_num) (by norm_num) (by norm_num)
    have hno : ¬q.canMove dd map_width map_height := by
      rw [canMove_def]
      rintro ⟨ha, -⟩
      exact ha (Or.inl (by rw [hx]; norm_num))
    exact ⟨hno, sceneMove_reject q dd map_width map_height hno⟩
  · intro q h1 h2 h3 h4
    have hx : cround (q.x + (dirOfAngle q.heading).1 * dd) = 2 := by
      rw [h1, h3]
      exact cround_eval _ 2 (by norm_num) (by norm_num) (by norm_num)
    have hy : cround (q.y + (dirOfAngle q.heading).2 * dd) = 1 := by
      rw [h2, h4]
      exact cround_eval _ 1 (by norm_num) (by norm_num) (by norm_num)
    rw [canMove_def, hx, hy]
    unfold map_width map_height
    omega

/-- Witness for C7: a caster at (1,1) heading `π/4 + π` (direction
`(-√2/2, -√2/2)`) moving by `√2` — a displacement of exactly (-1,-1) — is
rejected and left unchanged. -/
theorem claim_C7_witness :
    ¬(Player.mk 1 1 (Real.pi / 4 + Real.pi) []).canMove (Real.sqrt 2)
        map_width map_height ∧
      sceneMove (Player.mk 1 1 (Real.pi / 4 + Real.pi) []) 0 (Real.sqrt 2)
        map_width map_height = Player.mk 1 1 (Real.pi / 4 + Real.pi) [] := by
  have hs : Real.sqrt 2 * Real.sqrt 2 = 2 := Real.mul_self_sqrt (by norm_num)
  refine (claim_C7 (Player.mk 1 1 (Real.pi / 4 + Real.pi) [])
    (Real.sqrt 2) map_width map_height).2.2.2.1
    (Player.mk 1 1 (Real.pi / 4 + Real.pi) []) rfl rfl ?_ ?_
  · rw [dirOfAngle_eq]
    show Real.cos (Real.pi / 4 + Real.pi) * Real.sqrt 2 = -1
    rw [Real.cos_add_pi, Real.cos_pi_div_four]
    linear_combination (-(1 : ℝ) / 2) * hs
  · rw [dirOfAngle_eq]
    show Real.sin (Real.pi / 4 + Real.pi) * Real.sqrt 2 = -1
    rw [Real.sin_add_pi, Real.sin_pi_div_four]
    linear_combination (-(1 : ℝ) / 2) * hs

/-- The C++ `uint8_t b = <double>` conversion: truncation toward zero, with
out-of-range values (undefined behavior in the standard) modelled as the
two's-complement wrap the compiled conversion performs. -/
noncomputable def byteOfReal (x : ℝ) : ℤ :=
  ctrunc x % 256

/-- `Color::Gray(w)`: `wd = w / 100.0 * 255.0; min(int(wd + 0.5), 255)`. -/
noncomputable def grayLevel (w : ℤ) : ℤ :=
  min (ctrunc ((w : ℝ) / 100 * 255 + 1 / 2)) 255

/-- The strip height of one column of `View3D::Draw`:
`int h = Map(ray_hits[i].dist, 0, map_width, height, 0)`. -/
noncomputable def stripHeight (dist : ℝ) (height mw : ℤ) : ℤ :=
  ctrunc (MapRange dist 0 (mw : ℝ) (height : ℝ) 0)

/-- The gray level of one column of `View3D::Draw`:
`d2 = dist * dist; uint8_t b = Map(d2, 0, map_width * map_width, 100, 0);
Color c = Color::Gray(b)`. -/
noncomputable def columnGray (dist : ℝ) (mw : ℤ) : ℤ :=
  grayLevel (byteOfReal (MapRange (dist * dist) 0 ((mw : ℝ) * (mw : ℝ)) 100 0))

/-- One filled rectangle issued by `View3D::Draw` (position, size and the
gray level of its fill color). -/
structure ColRect where
  x : ℤ
  y : ℤ
  w : ℤ
  h : ℤ
  gray : ℤ

/-- One iteration of the `View3D::Draw` loop: `n` is `ray_hits.size()`,
`i` the loop index.  `int w = width / ray_hits.size()` and
`(height - h) / 2` use C integer division (truncation toward zero). -/
noncomputable def columnOf (n : ℕ) (vx vy width height mw : ℤ) (i : ℕ)
    (hit : RayHit) : ColRect :=
  let w := Int.tdiv width (n : ℤ)
  let h := stripHeight hit.dist height mw
  ⟨vx + (i : ℤ) * w, vy + Int.tdiv (height - h) 2, w, h, columnGray hit.dist mw⟩

/-- `View3D::Draw`: the list of filled rectangles issued for a hit list,
one per entry of `ray_hits`, indexed in list order. -/
noncomputable def view3DDraw (hits : List RayHit) (vx vy width height mw : ℤ) :
    List ColRect :=
  hits.enum.map (fun p => columnOf hits.length vx vy width height mw p.1 p.2)

theorem ctrunc_intCast (z : ℤ) : ctrunc (z : ℝ) = z := by
  unfold ctrunc
  by_cases hz : (z : ℝ) < 0
  · rw [if_pos hz, ← Int.cast_neg, Int.floor_intCast, neg_neg]
  · rw [if_neg hz, Int.floor_intCast]

theorem ctrunc_nonpos (x : ℝ) (h : x ≤ 0) : ctrunc x ≤ 0 := by
  unfold ctrunc
  by_cases hx : x < 0
  · rw [if_pos hx]
    have h0 : (0 : ℤ) ≤ ⌊-x⌋ := Int.floor_nonneg.mpr (by linarith)
    omega
  · rw [if_neg hx]
    rw [le_antisymm h (not_lt.mp hx)]
    simp

theorem ctrunc_nonneg (x : ℝ) (h : 0 ≤ x) : 0 ≤ ctrunc x := by
  unfold ctrunc
  rw [if_neg (not_lt.mpr h)]
  exact Int.floor_nonneg.mpr h

theorem ctrunc_le_ctrunc (x y : ℝ) (h0 : 0 ≤ x) (hxy : x ≤ y) :
    ctrunc x ≤ ctrunc y := by
  unfold ctrunc
  rw [if_neg (not_lt.mpr h0), if_neg (not_lt.mpr (h0.trans hxy))]
  exact Int.floor_le_floor hxy

theorem ctrunc_le_intCast (x : ℝ) (z : ℤ) (hz : 0 ≤ z) (h : x ≤ (z : ℝ)) :
    ctrunc x ≤ z := by
  unfold ctrunc
  by_cases hx : x < 0
  · rw [if_pos hx]
    have h0 : (0 : ℤ) ≤ ⌊-x⌋ := Int.floor_nonneg.mpr (by linarith)
    omega
  · rw [if_neg hx]
    calc ⌊x⌋ ≤ ⌊(z : ℝ)⌋ := Int.floor_le_floor h
      _ = z := Int.floor_intCast z

/-- The linear map used for strip heights, in solved form. -/
theorem mapRange_height (H mw : ℤ) (d : ℝ) :
    MapRange d 0 (mw : ℝ) (H : ℝ) 0 = (H : ℝ) - d * H / mw := by
  unfold MapRange
  field_simp
  ring

/-- C4, counterexample: a hit distance of 640 on the 320-wide map does not
get strip height 0 — the computed height is the negative value -240. -/
theorem claim_C4_counterexample :
    ((map_width : ℤ) : ℝ) ≤ 640 ∧ stripHeight 640 240 map_width = -240 ∧
      stripHeight 640 240 map_width ≠ 0 := by
  have hv : MapRange 640 0 ((map_width : ℤ) : ℝ) ((240 : ℤ) : ℝ) 0 =
      ((-240 : ℤ) : ℝ) := by
    unfold MapRange map_width
    push_cast
    norm_num
  refine ⟨by norm_num [map_width], ?_, ?_⟩
  · unfold stripHeight
    rw [hv, ctrunc_intCast]
  · unfold stripHeight
    rw [hv, ctrunc_intCast]
    decide

/-- C4, amended: distance 0 gives the full viewport height and distance
`map_width` gives height 0; any distance beyond `map_width` gives a
nonpositive (not necessarily zero) height, so nothing visible is drawn;
the height is monotonically nonincreasing on `[0, map_width]` and never
exceeds the viewport height; each strip is placed at
`y + (height - h) / 2`, which centers it up to the one-pixel parity
remainder. -/
theorem claim_C4 (H mw : ℤ) (hH : 0 < H) (hmw : 0 < mw) :
    (stripHeight 0 H mw = H) ∧
    (stripHeight (mw : ℝ) H mw = 0) ∧
    (∀ d : ℝ, (mw : ℝ) ≤ d → stripHeight d H mw ≤ 0) ∧
    (∀ d1 d2 : ℝ, 0 ≤ d1 → d1 ≤ d2 → d2 ≤ (mw : ℝ) →
      stripHeight d2 H mw ≤ stripHeight d1 H mw) ∧
    (∀ d : ℝ, 0 ≤ d → stripHeight d H mw ≤ H) ∧
    (∀ (hits : List RayHit) (vx vy width : ℤ) (i : ℕ) (c : ColRect),
      (view3DDraw hits vx vy width H mw)[i]? = some c →
      c.y = vy + Int.tdiv (H - c.h) 2) ∧
    (∀ h : ℤ, 0 ≤ h → h ≤ H →
      0 ≤ (H - h) - 2 * Int.tdiv (H - h) 2 ∧
      (H - h) - 2 * Int.tdiv (H - h) 2 ≤ 1) := by
  have hmwR : (0 : ℝ) < (mw : ℝ) := by exact_mod_cast hmw
  have hHR : (0 : ℝ) ≤ (H : ℝ) := by exact_mod_cast hH.le
  refine ⟨?_, ?_, ?_, ?_, ?_, ?_, ?_⟩
  · unfold stripHeight
    rw [mapRange_height H mw]
    rw [show (H : ℝ) - 0 * H / mw = ((H : ℤ) : ℝ) by ring]
    exact ctrunc_intCast H
  · unfold stripHeight
    rw [mapRange_height H mw]
    rw [show (H : ℝ) - (mw : ℝ) * H / mw = ((0 : ℤ) : ℝ) by
      field_simp]
    exact ctrunc_intCast 0
  · intro d hd
    unfold stripHeight
    rw [mapRange_height H mw]
    apply ctrunc_nonpos
    rw [sub_nonpos, le_div_iff₀ hmwR]
    nlinarith
  · intro d1 d2 h1 h12 h2
    unfold stripHeight
    rw [mapRange_height H mw, mapRange_height H mw]
    apply ctrunc_le_ctrunc
    · rw [sub_nonneg, div_le_iff₀ hmwR]
      nlinarith
    · have : d1 * H / mw ≤ d2 * H / mw := by
        apply div_le_div_of_nonneg_right ?_ hmwR.le
        · nlinarith
      linarith
  · intro d hd
    unfold stripHeight
    rw [mapRange_height H mw]
    apply ctrunc_le_intCast _ _ hH.le
    have : 0 ≤ d * H / mw := by positivity
    linarith
  · intro hits vx vy width i c hc
    unfold view3DDraw at hc
    rw [List.getElem?_map, List.getElem?_enum] at hc
    cases hh : hits[i]? with
    | none =>
      rw [hh] at hc
      exact absurd hc (by simp)
    | some hit =>
      rw [hh] at hc
      have : columnOf hits.length vx vy width H mw i hit = c := by
        simpa using hc
      rw [← this]
      rfl
  · intro h h0 hH'
    have ht : Int.tdiv (H - h) 2 = (H - h) / 2 :=
      Int.tdiv_eq_ediv (by omega) (by omega)
    omega

/-- C5, counterexample: with a single recorded hit, the drawn column is
`width / 1 = 640` pixels wide, not `width / num_rays = 2` — columns are
allotted per hit entry, not per ray of the fan. -/
theorem claim_C5_counterexample :
    ∃ c : ColRect,
      (view3DDraw [⟨159, 319, 120⟩] 0 0 640 480 320)[0]? = some c ∧
      c.w = 640 ∧ Int.tdiv 640 (num_rays : ℤ) = 2 ∧ c.w ≠ 2 := by
  refine ⟨columnOf 1 0 0 640 480 320 0 ⟨159, 319, 120⟩, ?_, ?_, ?_, ?_⟩
  · unfold view3DDraw
    rw [List.getElem?_map, List.getElem?_enum]
    rfl
  · show Int.tdiv 640 ((1 : ℕ) : ℤ) = 640
    decide
  · decide
  · show Int.tdiv 640 ((1 : ℕ) : ℤ) ≠ 2
    decide

/-- C5, amended: `View3D::Draw` allots one column per entry of the hit
list, in list order, each `width / ray_hits.size()` wide; a ray that
missed contributes no entry, so later hits shift into earlier columns
(only when every ray hits does this coincide with one column per ray of
width `width / num_rays`). -/
theorem claim_C5 (hits : List RayHit) (vx vy width H mw : ℤ) (i : ℕ)
    (hit : RayHit) (h : hits[i]? = some hit) :
    ((view3DDraw hits vx vy width H mw).length = hits.length) ∧
    ∃ c, (view3DDraw hits vx vy width H mw)[i]? = some c ∧
      c.x = vx + (i : ℤ) * Int.tdiv width (hits.length : ℤ) ∧
      c.w = Int.tdiv width (hits.length : ℤ) := by
  constructor
  · unfold view3DDraw
    rw [List.length_map, List.enum_length]
  · refine ⟨columnOf hits.length vx vy width H mw i hit, ?_, rfl, rfl⟩
    unfold view3DDraw
    rw [List.getElem?_map, List.getElem?_enum, h]
    rfl

/-- Witness for C5 (amended): the single-hit draw puts its one column at
the viewport origin with the full width. -/
theorem claim_C5_witness :
    ((view3DDraw [⟨159, 319, 120⟩] 0 0 640 480 320).length = 1) ∧
    ∃ c, (view3DDraw [⟨159, 319, 120⟩] 0 0 640 480 320)[0]? = some c ∧
      c.x = 0 + ((0 : ℕ) : ℤ) * Int.tdiv 640 (((1 : ℕ) : ℤ)) ∧
      c.w = Int.tdiv 640 (((1 : ℕ) : ℤ)) :=
  claim_C5 [⟨159, 319, 120⟩] 0 0 640 480 320 0 ⟨159, 319, 120⟩ rfl

/-- Evaluation rule for `ctrunc` on a nonnegative argument. -/
theorem ctrunc_eval (x : ℝ) (z : ℤ) (h0 : 0 ≤ x) (h1 : (z : ℝ) ≤ x)
    (h2 : x < z + 1) : ctrunc x = z := by
  unfold ctrunc
  rw [if_neg (not_lt.mpr h0)]
  exact Int.floor_eq_iff.mpr ⟨h1, h2⟩

theorem grayLevel_mono (b1 b2 : ℤ) (h0 : 0 ≤ b1) (h : b1 ≤ b2) :
    grayLevel b1 ≤ grayLevel b2 := by
  unfold grayLevel
  refine min_le_min ?_ le_rfl
  have hb1 : (0 : ℝ) ≤ (b1 : ℝ) := by exact_mod_cast h0
  have hb : (b1 : ℝ) ≤ (b2 : ℝ) := by exact_mod_cast h
  apply ctrunc_le_ctrunc
  · linarith
  · linarith

theorem grayLevel_range (b : ℤ) (h0 : 0 ≤ b) :
    0 ≤ grayLevel b ∧ grayLevel b ≤ 255 := by
  unfold grayLevel
  have hb : (0 : ℝ) ≤ (b : ℝ) := by exact_mod_cast h0
  constructor
  · refine le_min ?_ (by norm_num)
    apply ctrunc_nonneg
    linarith
  · exact min_le_right _ _

/-- The quadratic brightness map of `View3D::Draw`, in solved form. -/
theorem mapRange_bright (mw : ℤ) (d : ℝ) :
    MapRange (d * d) 0 ((mw : ℝ) * (mw : ℝ)) 100 0 =
      100 - d * d * 100 / ((mw : ℝ) * (mw : ℝ)) := by
  unfold MapRange
  ring

/-- C6, counterexample: the column gray level is not clamped and does not
decrease monotonically with squared distance — a hit at distance 640 on
the 320-wide map produces the intermediate value -300, whose unsigned-byte
conversion wraps to 212 and renders at full brightness 255, brighter than
the gray level 0 of a hit at distance 320. -/
theorem claim_C6_counterexample :
    columnGray 320 map_width = 0 ∧ columnGray 640 map_width = 255 ∧
      columnGray 320 map_width < columnGray 640 map_width := by
  have e1 : MapRange ((320 : ℝ) * 320) 0
      (((map_width : ℤ) : ℝ) * ((map_width : ℤ) : ℝ)) 100 0 =
      ((0 : ℤ) : ℝ) := by
    unfold MapRange map_width
    push_cast
    norm_num
  have e2 : MapRange ((640 : ℝ) * 640) 0
      (((map_width : ℤ) : ℝ) * ((map_width : ℤ) : ℝ)) 100 0 =
      ((-300 : ℤ) : ℝ) := by
    unfold MapRange map_width
    push_cast
    norm_num
  have hA : columnGray 320 map_width = 0 := by
    unfold columnGray byteOfReal
    rw [e1, ctrunc_intCast, show (0 : ℤ) % 256 = 0 from by decide]
    unfold grayLevel
    rw [show ((0 : ℤ) : ℝ) / 100 * 255 + 1 / 2 = 1 / 2 from by norm_num,
      ctrunc_eval (1 / 2) 0 (by norm_num) (by norm_num) (by norm_num)]
    decide
  have hB : columnGray 640 map_width = 255 := by
    unfold columnGray byteOfReal
    rw [e2, ctrunc_intCast, show (-300 : ℤ) % 256 = 212 from by decide]
    unfold grayLevel
    rw [show ((212 : ℤ) : ℝ) / 100 * 255 + 1 / 2 = 5411 / 10 from by
        norm_num,
      ctrunc_eval (5411 / 10) 541 (by norm_num) (by norm_num) (by norm_num)]
    decide
  exact ⟨hA, hB, by rw [hA, hB]; decide⟩

/-- C6, amended: on hit distances between 0 and `map_width` the gray level
decreases monotonically with the square of the distance and stays inside
the representable range 0..255; for larger distances the intermediate
value is negative and the unsigned-byte conversion wraps instead of
clamping. -/
theorem claim_C6 (mw : ℤ) (hmw : 0 < mw) :
    (∀ d1 d2 : ℝ, 0 ≤ d1 → d1 ≤ d2 → d2 ≤ (mw : ℝ) →
      columnGray d2 mw ≤ columnGray d1 mw) ∧
    (∀ d : ℝ, 0 ≤ d → d ≤ (mw : ℝ) →
      0 ≤ columnGray d mw ∧ columnGray d mw ≤ 255) := by
  have hmwR : (0 : ℝ) < (mw : ℝ) := by exact_mod_cast hmw
  have hsq : (0 : ℝ) < (mw : ℝ) * (mw : ℝ) := by positivity
  have hv_nonneg : ∀ d : ℝ, 0 ≤ d → d ≤ (mw : ℝ) →
      0 ≤ MapRange (d * d) 0 ((mw : ℝ) * (mw : ℝ)) 100 0 := by
    intro d h0 h1
    rw [mapRange_bright mw]
    rw [sub_nonneg, div_le_iff₀ hsq]
    nlinarith
  have hv_le : ∀ d : ℝ, 0 ≤ d →
      MapRange (d * d) 0 ((mw : ℝ) * (mw : ℝ)) 100 0 ≤ 100 := by
    intro d h0
    rw [mapRange_bright mw]
    have : 0 ≤ d * d * 100 / ((mw : ℝ) * (mw : ℝ)) := by positivity
    linarith
  have hbyte : ∀ d : ℝ, 0 ≤ d → d ≤ (mw : ℝ) →
      byteOfReal (MapRange (d * d) 0 ((mw : ℝ) * (mw : ℝ)) 100 0) =
        ctrunc (MapRange (d * d) 0 ((mw : ℝ) * (mw : ℝ)) 100 0) := by
    intro d h0 h1
    unfold byteOfReal
    apply Int.emod_eq_of_lt
    · exact ctrunc_nonneg _ (hv_nonneg d h0 h1)
    · have := ctrunc_le_intCast
        (MapRange (d * d) 0 ((mw : ℝ) * (mw : ℝ)) 100 0) 100 (by norm_num)
        (by exact_mod_cast hv_le d h0)
      omega
  constructor
  · intro d1 d2 h0 h12 h2
    unfold columnGray
    rw [hbyte d2 (h0.trans h12) h2, hbyte d1 h0 (h12.trans h2)]
    apply grayLevel_mono
    · exact ctrunc_nonneg _ (hv_nonneg d2 (h0.trans h12) h2)
    · apply ctrunc_le_ctrunc _ _ (hv_nonneg d2 (h0.trans h12) h2)
      rw [mapRange_bright mw, mapRange_bright mw]
      have hd : d1 * d1 * 100 / ((mw : ℝ) * (mw : ℝ)) ≤
          d2 * d2 * 100 / ((mw : ℝ) * (mw : ℝ)) := by
        apply div_le_div_of_nonneg_right ?_ hsq.le
        · nlinarith
      linarith
  · intro d h0 h1
    unfold columnGray
    rw [hbyte d h0 h1]
    exact grayLevel_range _ (ctrunc_nonneg _ (hv_nonneg d h0 h1))

/-- Witness for C6 (amended): a hit at distance zero gets an in-range
gray level. -/
theorem claim_C6_witness :
    0 ≤ columnGray 0 (320 : ℤ) ∧ columnGray 0 (320 : ℤ) ≤ 255 :=
  (claim_C6 320 (by decide)).2 0 le_rfl (by norm_num)

/-- Witness for C4 (amended): on the real viewport a hit at distance zero
fills the full height. -/
theorem claim_C4_witness :
    stripHeight 0 240 320 = 240 :=
  (claim_C4 240 320 (by decide) (by decide)).1

/-- The four walls pushed first by `Scene::InitWalls`, for a map whose
usable extent is `w × h` (`w = map_width - 1`, `h = map_height - 1` in the
source): left, top, right, bottom, in push order. -/
def mkBoundaryWalls (w h : ℤ) : List Wall :=
  [⟨0, 0, 0, h⟩, ⟨0, 0, w, 0⟩, ⟨w, 0, w, h⟩, ⟨0, h, w, h⟩]

/-- The boundary walls of the actual scene. -/
def boundaryWalls : List Wall :=
  mkBoundaryWalls (map_width - 1) (map_height - 1)

/-- The number of walls of a collection that a ray reports a hit on. -/
noncomputable def hitCount (r : Ray) (ws : List Wall) : ℕ :=
  ws.countP (fun w => (r.intersect w).isSome)

/-- Success characterization of `Ray::Intersect` against a vertical wall
`(c,0)-(c,h)`: the left (`c = 0`) and right (`c = w`) boundary walls. -/
theorem vwall_iff (x y dx dy : ℝ) (c hhZ : ℤ) (hH : (0 : ℝ) < (hhZ : ℝ))
    (tw tr : ℝ) :
    intersectD x y dx dy ⟨c, 0, c, hhZ⟩ = some (tw, tr) ↔
      (dx ≠ 0 ∧ 0 < tw ∧ tw < 1 ∧ 0 < tr ∧
       x + tr * dx = (c : ℝ) ∧ y + tr * dy = tw * (hhZ : ℝ)) := by
  have hden_eq : den dx dy ⟨c, 0, c, hhZ⟩ = -(dx * (hhZ : ℝ)) := by
    unfold den
    push_cast
    ring
  rw [intersectD_some_iff, hden_eq]
  constructor
  · rintro ⟨h1, h2, h3, h4, h5, h6⟩
    refine ⟨fun hdx => h1 (by rw [hdx]; ring), h2, h3, h4, ?_, ?_⟩
    · push_cast at h5
      linarith
    · push_cast at h6
      linarith
  · rintro ⟨h1, h2, h3, h4, h5, h6⟩
    refine ⟨?_, h2, h3, h4, ?_, ?_⟩
    · intro hc
      rcases mul_eq_zero.mp (neg_eq_zero.mp hc) with h | h
      · exact h1 h
      · linarith
    · push_cast
      linarith
    · push_cast
      linarith

/-- Success characterization of `Ray::Intersect` against a horizontal wall
`(0,c)-(w,c)`: the top (`c = 0`) and bottom (`c = h`) boundary walls. -/
theorem hwall_iff (x y dx dy : ℝ) (c wwZ : ℤ) (hW : (0 : ℝ) < (wwZ : ℝ))
    (tw tr : ℝ) :
    intersectD x y dx dy ⟨0, c, wwZ, c⟩ = some (tw, tr) ↔
      (dy ≠ 0 ∧ 0 < tw ∧ tw < 1 ∧ 0 < tr ∧
       x + tr * dx = tw * (wwZ : ℝ) ∧ y + tr * dy = (c : ℝ)) := by
  have hden_eq : den dx dy ⟨0, c, wwZ, c⟩ = dy * (wwZ : ℝ) := by
    unfold den
    push_cast
    ring
  rw [intersectD_some_iff, hden_eq]
  constructor
  · rintro ⟨h1, h2, h3, h4, h5, h6⟩
    refine ⟨fun hdy => h1 (by rw [hdy]; ring), h2, h3, h4, ?_, ?_⟩
    · push_cast at h5
      linarith
    · push_cast at h6
      linarith
  · rintro ⟨h1, h2, h3, h4, h5, h6⟩
    refine ⟨?_, h2, h3, h4, ?_, ?_⟩
    · intro hc
      rcases mul_eq_zero.mp hc with h | h
      · exact h1 h
      · linarith
    · push_cast
      linarith
    · push_cast
      linarith

/-- Build a hit on a vertical boundary wall from an explicit ray
parameter whose crossing point lies strictly inside the open segment. -/
theorem vwall_some (x y dx dy : ℝ) (c hhZ : ℤ) (hH : (0 : ℝ) < (hhZ : ℝ))
    (hdx : dx ≠ 0) (tr : ℝ) (htr : 0 < tr)
    (heqx : x + tr * dx = (c : ℝ))
    (h0 : 0 < y + tr * dy) (h1 : y + tr * dy < (hhZ : ℝ)) :
    intersectD x y dx dy ⟨c, 0, c, hhZ⟩ =
      some ((y + tr * dy) / (hhZ : ℝ), tr) := by
  rw [vwall_iff x y dx dy c hhZ hH]
  exact ⟨hdx, div_pos h0 hH, (div_lt_one hH).mpr h1, htr, heqx,
    (div_mul_cancel₀ _ hH.ne').symm⟩

/-- Build a hit on a horizontal boundary wall from an explicit ray
parameter whose crossing point lies strictly inside the open segment. -/
theorem hwall_some (x y dx dy : ℝ) (c wwZ : ℤ) (hW : (0 : ℝ) < (wwZ : ℝ))
    (hdy : dy ≠ 0) (tr : ℝ) (htr : 0 < tr)
    (heqy : y + tr * dy = (c : ℝ))
    (h0 : 0 < x + tr * dx) (h1 : x + tr * dx < (wwZ : ℝ)) :
    intersectD x y dx dy ⟨0, c, wwZ, c⟩ =
      some ((x + tr * dx) / (wwZ : ℝ), tr) := by
  rw [hwall_iff x y dx dy c wwZ hW]
  exact ⟨hdy, div_pos h0 hW, (div_lt_one hW).mpr h1, htr,
    (div_mul_cancel₀ _ hW.ne').symm, heqy⟩

/-- Refute a hit on a vertical boundary wall from the characterization. -/
theorem vwall_none (x y dx dy : ℝ) (c hhZ : ℤ) (hH : (0 : ℝ) < (hhZ : ℝ))
    (h : ∀ tw tr : ℝ, dx ≠ 0 → 0 < tw → tw < 1 → 0 < tr →
      x + tr * dx = (c : ℝ) → y + tr * dy = tw * (hhZ : ℝ) → False) :
    intersectD x y dx dy ⟨c, 0, c, hhZ⟩ = none := by
  cases hI : intersectD x y dx dy ⟨c, 0, c, hhZ⟩ with
  | none => rfl
  | some p =>
    obtain ⟨tw, tr⟩ := p
    obtain ⟨h1, h2, h3, h4, h5, h6⟩ :=
      (vwall_iff x y dx dy c hhZ hH tw tr).mp hI
    exact (h tw tr h1 h2 h3 h4 h5 h6).elim

/-- Refute a hit on a horizontal boundary wall from the characterization. -/
theorem hwall_none (x y dx dy : ℝ) (c wwZ : ℤ) (hW : (0 : ℝ) < (wwZ : ℝ))
    (h : ∀ tw tr : ℝ, dy ≠ 0 → 0 < tw → tw < 1 → 0 < tr →
      x + tr * dx = tw * (wwZ : ℝ) → y + tr * dy = (c : ℝ) → False) :
    intersectD x y dx dy ⟨0, c, wwZ, c⟩ = none := by
  cases hI : intersectD x y dx dy ⟨0, c, wwZ, c⟩ with
  | none => rfl
  | some p =>
    obtain ⟨tw, tr⟩ := p
    obtain ⟨h1, h2, h3, h4, h5, h6⟩ :=
      (hwall_iff x y dx dy c wwZ hW tw tr).mp hI
    exact (h tw tr h1 h2 h3 h4 h5 h6).elim

set_option maxHeartbeats 2000000 in
/-- Core of C8: from any origin strictly inside the boundary rectangle,
a ray hits exactly one of the four boundary walls, except that it hits
none of them exactly when it leaves the rectangle through a corner. -/
theorem boundary_exclusive (wwZ hhZ : ℤ) (x y dx dy : ℝ)
    (hW : (0 : ℝ) < (wwZ : ℝ)) (hH : (0 : ℝ) < (hhZ : ℝ))
    (hx0 : 0 < x) (hx1 : x < (wwZ : ℝ)) (hy0 : 0 < y) (hy1 : y < (hhZ : ℝ))
    (hne : ¬(dx = 0 ∧ dy = 0)) :
    (List.countP (fun w => (intersectD x y dx dy w).isSome)
        (mkBoundaryWalls wwZ hhZ) = 1) ∨
    ((∃ t : ℝ, 0 < t ∧
        (x + t * dx = 0 ∨ x + t * dx = (wwZ : ℝ)) ∧
        (y + t * dy = 0 ∨ y + t * dy = (hhZ : ℝ))) ∧
      List.countP (fun w => (intersectD x y dx dy w).isSome)
        (mkBoundaryWalls wwZ hhZ) = 0) := by
  rcases lt_trichotomy dx 0 with hdx | hdx | hdx <;>
    rcases lt_trichotomy dy 0 with hdy | hdy | hdy
  · -- dx < 0, dy < 0: candidates are left and top; corner (0,0)
    have hmdx : (0 : ℝ) < -dx := by linarith
    have hmdy : (0 : ℝ) < -dy := by linarith
    have hR : intersectD x y dx dy ⟨wwZ, 0, wwZ, hhZ⟩ = none :=
      vwall_none x y dx dy wwZ hhZ hH (fun tw tr h1 h2 h3 h4 h5 h6 => by
        nlinarith [mul_pos h4 hmdx])
    have hB : intersectD x y dx dy ⟨0, hhZ, wwZ, hhZ⟩ = none :=
      hwall_none x y dx dy hhZ wwZ hW (fun tw tr h1 h2 h3 h4 h5 h6 => by
        nlinarith [mul_pos h4 hmdy])
    rcases lt_trichotomy (x * -dy) (y * -dx) with hc | hc | hc
    · -- exits through the left wall first
      have htr : 0 < x / -dx := div_pos hx0 hmdx
      have heqx : x + x / -dx * dx = ((0 : ℤ) : ℝ) := by
        push_cast
        field_simp
      have hya : 0 < y + x / -dx * dy := by
        have hlt : x * -dy / -dx < y := by
          rw [div_lt_iff₀ hmdx]
          linarith
        have : x / -dx * dy = -(x * -dy / -dx) := by
          ring
        linarith
      have hyb : y + x / -dx * dy < (hhZ : ℝ) := by
        nlinarith [mul_pos htr hmdy]
      have hL := vwall_some x y dx dy 0 hhZ hH hdx.ne (x / -dx) htr heqx hya hyb
      have hT : intersectD x y dx dy ⟨0, 0, wwZ, 0⟩ = none :=
        hwall_none x y dx dy 0 wwZ hW (fun tw tr h1 h2 h3 h4 h5 h6 => by
          push_cast at h6
          have key : tw * (wwZ : ℝ) * -dy = x * -dy - y * -dx := by
            linear_combination dy * h5 - dx * h6
          nlinarith [mul_pos (mul_pos h2 hW) hmdy])
      left
      simp [mkBoundaryWalls, List.countP_cons, hL, hT, hR, hB]
    · -- exits exactly through the corner (0, 0)
      have hL : intersectD x y dx dy ⟨0, 0, 0, hhZ⟩ = none :=
        vwall_none x y dx dy 0 hhZ hH (fun tw tr h1 h2 h3 h4 h5 h6 => by
          push_cast at h5
          have key : tw * (hhZ : ℝ) * -dx = y * -dx - x * -dy := by
            linear_combination dx * h6 - dy * h5
          nlinarith [mul_pos (mul_pos h2 hH) hmdx])
      have hT : intersectD x y dx dy ⟨0, 0, wwZ, 0⟩ = none :=
        hwall_none x y dx dy 0 wwZ hW (fun tw tr h1 h2 h3 h4 h5 h6 => by
          push_cast at h6
          have key : tw * (wwZ : ℝ) * -dy = x * -dy - y * -dx := by
            linear_combination dy * h5 - dx * h6
          nlinarith [mul_pos (mul_pos h2 hW) hmdy])
      right
      constructor
      · refine ⟨x / -dx, div_pos hx0 hmdx, Or.inl ?_, Or.inl ?_⟩
        · field_simp
        · have ht : x / -dx * -dy = y := by
            rw [div_mul_eq_mul_div, div_eq_iff hmdx.ne']
            linarith
          have : x / -dx * dy = -(x / -dx * -dy) := by ring
          rw [this, ht]
          ring
      · simp [mkBoundaryWalls, List.countP_cons, hL, hT, hR, hB]
    · -- exits through the top wall first
      have htr : 0 < y / -dy := div_pos hy0 hmdy
      have heqy : y + y / -dy * dy = ((0 : ℤ) : ℝ) := by
        push_cast
        field_simp
      have hxa : 0 < x + y / -dy * dx := by
        have hlt : y * -dx / -dy < x := by
          rw [div_lt_iff₀ hmdy]
          linarith
        have : y / -dy * dx = -(y * -dx / -dy) := by
          ring
        linarith
      have hxb : x + y / -dy * dx < (wwZ : ℝ) := by
        nlinarith [mul_pos htr hmdx]
      have hT := hwall_some x y dx dy 0 wwZ hW hdy.ne (y / -dy) htr heqy hxa hxb
      have hL : intersectD x y dx dy ⟨0, 0, 0, hhZ⟩ = none :=
        vwall_none x y dx dy 0 hhZ hH (fun tw tr h1 h2 h3 h4 h5 h6 => by
          push_cast at h5
          have key : tw * (hhZ : ℝ) * -dx = y * -dx - x * -dy := by
            linear_combination dx * h6 - dy * h5
          nlinarith [mul_pos (mul_pos h2 hH) hmdx])
      left
      simp [mkBoundaryWalls, List.countP_cons, hL, hT, hR, hB]
  · -- dx < 0, dy = 0: the left wall alone
    subst hdy
    have hmdx : (0 : ℝ) < -dx := by linarith
    have htr : 0 < x / -dx := div_pos hx0 hmdx
    have heqx : x + x / -dx * dx = ((0 : ℤ) : ℝ) := by
      field_simp
    have hL := vwall_some x y dx 0 0 hhZ hH hdx.ne (x / -dx) htr heqx
      (by rw [mul_zero]; linarith) (by rw [mul_zero]; linarith)
    have hR : intersectD x y dx 0 ⟨wwZ, 0, wwZ, hhZ⟩ = none :=
      vwall_none x y dx 0 wwZ hhZ hH (fun tw tr h1 h2 h3 h4 h5 h6 => by
        nlinarith [mul_pos h4 hmdx])
    have hT : intersectD x y dx 0 ⟨0, 0, wwZ, 0⟩ = none :=
      hwall_none x y dx 0 0 wwZ hW (fun tw tr h1 h2 h3 h4 h5 h6 =>
        h1 rfl)
    have hB : intersectD x y dx 0 ⟨0, hhZ, wwZ, hhZ⟩ = none :=
      hwall_none x y dx 0 hhZ wwZ hW (fun tw tr h1 h2 h3 h4 h5 h6 =>
        h1 rfl)
    left
    simp [mkBoundaryWalls, List.countP_cons, hL, hT, hR, hB]
  · -- dx < 0, dy > 0: candidates are left and bottom; corner (0, H)
    have hmdx : (0 : ℝ) < -dx := by linarith
    have hR : intersectD x y dx dy ⟨wwZ, 0, wwZ, hhZ⟩ = none :=
      vwall_none x y dx dy wwZ hhZ hH (fun tw tr h1 h2 h3 h4 h5 h6 => by
        nlinarith [mul_pos h4 hmdx])
    have hT : intersectD x y dx dy ⟨0, 0, wwZ, 0⟩ = none :=
      hwall_none x y dx dy 0 wwZ hW (fun tw tr h1 h2 h3 h4 h5 h6 => by
        push_cast at h6
        nlinarith [mul_pos h4 hdy])
    rcases lt_trichotomy (x * dy) (((hhZ : ℝ) - y) * -dx) with hc | hc | hc
    · -- exits through the left wall first
      have htr : 0 < x / -dx := div_pos hx0 hmdx
      have heqx : x + x / -dx * dx = ((0 : ℤ) : ℝ) := by
        push_cast
        field_simp
      have hya : 0 < y + x / -dx * dy := by
        nlinarith [mul_pos htr hdy]
      have hyb : y + x / -dx * dy < (hhZ : ℝ) := by
        have hlt : x * dy / -dx < (hhZ : ℝ) - y := by
          rw [div_lt_iff₀ hmdx]
          linarith
        have : x / -dx * dy = x * dy / -dx := by
          ring
        linarith
      have hL := vwall_some x y dx dy 0 hhZ hH hdx.ne (x / -dx) htr heqx hya hyb
      have hB : intersectD x y dx dy ⟨0, hhZ, wwZ, hhZ⟩ = none :=
        hwall_none x y dx dy hhZ wwZ hW (fun tw tr h1 h2 h3 h4 h5 h6 => by
          have key : tw * (wwZ : ℝ) * dy =
              x * dy - ((hhZ : ℝ) - y) * -dx := by
            linear_combination dx * h6 - dy * h5
          nlinarith [mul_pos (mul_pos h2 hW) hdy])
      left
      simp [mkBoundaryWalls, List.countP_cons, hL, hT, hR, hB]
    · -- exits exactly through the corner (0, H)
      have hL : intersectD x y dx dy ⟨0, 0, 0, hhZ⟩ = none :=
        vwall_none x y dx dy 0 hhZ hH (fun tw tr h1 h2 h3 h4 h5 h6 => by
          push_cast at h5
          have key : tw * (hhZ : ℝ) * -dx =
              y * -dx + x * dy := by
            linear_combination dx * h6 - dy * h5
          nlinarith [mul_pos hH hmdx, h3])
      have hB : intersectD x y dx dy ⟨0, hhZ, wwZ, hhZ⟩ = none :=
        hwall_none x y dx dy hhZ wwZ hW (fun tw tr h1 h2 h3 h4 h5 h6 => by
          have key : tw * (wwZ : ℝ) * dy =
              x * dy - ((hhZ : ℝ) - y) * -dx := by
            linear_combination dx * h6 - dy * h5
          nlinarith [mul_pos (mul_pos h2 hW) hdy])
      right
      constructor
      · refine ⟨x / -dx, div_pos hx0 hmdx, Or.inl ?_, Or.inr ?_⟩
        · field_simp
        · have ht : x / -dx * dy = (hhZ : ℝ) - y := by
            rw [div_mul_eq_mul_div, div_eq_iff hmdx.ne']
            linarith
          linarith [ht]
      · simp [mkBoundaryWalls, List.countP_cons, hL, hT, hR, hB]
    · -- exits through the bottom wall first
      have htr : 0 < ((hhZ : ℝ) - y) / dy := div_pos (by linarith) hdy
      have heqy : y + ((hhZ : ℝ) - y) / dy * dy = ((hhZ : ℤ) : ℝ) := by
        field_simp
      have hxa : 0 < x + ((hhZ : ℝ) - y) / dy * dx := by
        have hlt : ((hhZ : ℝ) - y) * -dx / dy < x := by
          rw [div_lt_iff₀ hdy]
          linarith
        have : ((hhZ : ℝ) - y) / dy * dx =
            -(((hhZ : ℝ) - y) * -dx / dy) := by
          ring
        linarith
      have hxb : x + ((hhZ : ℝ) - y) / dy * dx < (wwZ : ℝ) := by
        nlinarith [mul_pos htr hmdx]
      have hB := hwall_some x y dx dy hhZ wwZ hW hdy.ne'
        (((hhZ : ℝ) - y) / dy) htr heqy hxa hxb
      have hL : intersectD x y dx dy ⟨0, 0, 0, hhZ⟩ = none :=
        vwall_none x y dx dy 0 hhZ hH (fun tw tr h1 h2 h3 h4 h5 h6 => by
          push_cast at h5
          have key : tw * (hhZ : ℝ) * -dx =
              y * -dx + x * dy := by
            linear_combination dx * h6 - dy * h5
          nlinarith [mul_pos hH hmdx, h3])
      left
      simp [mkBoundaryWalls, List.countP_cons, hL, hT, hR, hB]
  · -- dx = 0, dy < 0: the top wall alone
    subst hdx
    have hmdy : (0 : ℝ) < -dy := by linarith
    have htr : 0 < y / -dy := div_pos hy0 hmdy
    have heqy : y + y / -dy * dy = ((0 : ℤ) : ℝ) := by
      field_simp
    have hT := hwall_some x y 0 dy 0 wwZ hW hdy.ne (y / -dy) htr heqy
      (by rw [mul_zero]; linarith) (by rw [mul_zero]; linarith)
    have hL : intersectD x y 0 dy ⟨0, 0, 0, hhZ⟩ = none :=
      vwall_none x y 0 dy 0 hhZ hH (fun tw tr h1 h2 h3 h4 h5 h6 =>
        h1 rfl)
    have hR : intersectD x y 0 dy ⟨wwZ, 0, wwZ, hhZ⟩ = none :=
      vwall_none x y 0 dy wwZ hhZ hH (fun tw tr h1 h2 h3 h4 h5 h6 =>
        h1 rfl)
    have hB : intersectD x y 0 dy ⟨0, hhZ, wwZ, hhZ⟩ = none :=
      hwall_none x y 0 dy hhZ wwZ hW (fun tw tr h1 h2 h3 h4 h5 h6 => by
        nlinarith [mul_pos h4 hmdy])
    left
    simp [mkBoundaryWalls, List.countP_cons, hL, hT, hR, hB]
  · -- dx = 0, dy = 0: excluded
    exact absurd ⟨hdx, hdy⟩ hne
  · -- dx = 0, dy > 0: the bottom wall alone
    subst hdx
    have htr : 0 < ((hhZ : ℝ) - y) / dy := div_pos (by linarith) hdy
    have heqy : y + ((hhZ : ℝ) - y) / dy * dy = ((hhZ : ℤ) : ℝ) := by
      field_simp
    have hB := hwall_some x y 0 dy hhZ wwZ hW hdy.ne'
      (((hhZ : ℝ) - y) / dy) htr heqy
      (by rw [mul_zero]; linarith) (by rw [mul_zero]; linarith)
    have hL : intersectD x y 0 dy ⟨0, 0, 0, hhZ⟩ = none :=
      vwall_none x y 0 dy 0 hhZ hH (fun tw tr h1 h2 h3 h4 h5 h6 =>
        h1 rfl)
    have hR : intersectD x y 0 dy ⟨wwZ, 0, wwZ, hhZ⟩ = none :=
      vwall_none x y 0 dy wwZ hhZ hH (fun tw tr h1 h2 h3 h4 h5 h6 =>
        h1 rfl)
    have hT : intersectD x y 0 dy ⟨0, 0, wwZ, 0⟩ = none :=
      hwall_none x y 0 dy 0 wwZ hW (fun tw tr h1 h2 h3 h4 h5 h6 => by
        push_cast at h6
        nlinarith [mul_pos h4 hdy])
    left
    simp [mkBoundaryWalls, List.countP_cons, hL, hT, hR, hB]
  · -- dx > 0, dy < 0: candidates are right and top; corner (W, 0)
    have hmdy : (0 : ℝ) < -dy := by linarith
    have hL : intersectD x y dx dy ⟨0, 0, 0, hhZ⟩ = none :=
      vwall_none x y dx dy 0 hhZ hH (fun tw tr h1 h2 h3 h4 h5 h6 => by
        push_cast at h5
        nlinarith [mul_pos h4 hdx])
    have hB : intersectD x y dx dy ⟨0, hhZ, wwZ, hhZ⟩ = none :=
      hwall_none x y dx dy hhZ wwZ hW (fun tw tr h1 h2 h3 h4 h5 h6 => by
        nlinarith [mul_pos h4 hmdy])
    rcases lt_trichotomy (((wwZ : ℝ) - x) * -dy) (y * dx) with hc | hc | hc
    · -- exits through the right wall first
      have htr : 0 < ((wwZ : ℝ) - x) / dx := div_pos (by linarith) hdx
      have heqx : x + ((wwZ : ℝ) - x) / dx * dx = ((wwZ : ℤ) : ℝ) := by
        field_simp
      have hya : 0 < y + ((wwZ : ℝ) - x) / dx * dy := by
        have hlt : ((wwZ : ℝ) - x) * -dy / dx < y := by
          rw [div_lt_iff₀ hdx]
          linarith
        have : ((wwZ : ℝ) - x) / dx * dy =
            -(((wwZ : ℝ) - x) * -dy / dx) := by
          ring
        linarith
      have hyb : y + ((wwZ : ℝ) - x) / dx * dy < (hhZ : ℝ) := by
        nlinarith [mul_pos htr hmdy]
      have hR := vwall_some x y dx dy wwZ hhZ hH hdx.ne'
        (((wwZ : ℝ) - x) / dx) htr heqx hya hyb
      have hT : intersectD x y dx dy ⟨0, 0, wwZ, 0⟩ = none :=
        hwall_none x y dx dy 0 wwZ hW (fun tw tr h1 h2 h3 h4 h5 h6 => by
          push_cast at h6
          have key : tw * (wwZ : ℝ) * -dy =
              x * -dy + y * dx := by
            linear_combination dy * h5 - dx * h6
          nlinarith [mul_pos (mul_pos h2 hW) hmdy])
      left
      simp [mkBoundaryWalls, List.countP_cons, hL, hT, hR, hB]
    · -- exits exactly through the corner (W, 0)
      have hR : intersectD x y dx dy ⟨wwZ, 0, wwZ, hhZ⟩ = none :=
        vwall_none x y dx dy wwZ hhZ hH (fun tw tr h1 h2 h3 h4 h5 h6 => by
          have key : tw * (hhZ : ℝ) * dx =
              y * dx - ((wwZ : ℝ) - x) * -dy := by
            linear_combination dy * h5 - dx * h6
          nlinarith [mul_pos (mul_pos h2 hH) hdx])
      have hT : intersectD x y dx dy ⟨0, 0, wwZ, 0⟩ = none :=
        hwall_none x y dx dy 0 wwZ hW (fun tw tr h1 h2 h3 h4 h5 h6 => by
          push_cast at h6
          have key : tw * (wwZ : ℝ) * -dy =
              x * -dy + y * dx := by
            linear_combination dy * h5 - dx * h6
          nlinarith [mul_pos hW hmdy, h3])
      right
      constructor
      · refine ⟨((wwZ : ℝ) - x) / dx, div_pos (by linarith) hdx,
          Or.inr ?_, Or.inl ?_⟩
        · field_simp
        · have ht : ((wwZ : ℝ) - x) / dx * -dy = y := by
            rw [div_mul_eq_mul_div, div_eq_iff hdx.ne']
            linarith
          have : ((wwZ : ℝ) - x) / dx * dy =
              -(((wwZ : ℝ) - x) / dx * -dy) := by ring
          rw [this, ht]
          ring
      · simp [mkBoundaryWalls, List.countP_cons, hL, hT, hR, hB]
    · -- exits through the top wall first
      have htr : 0 < y / -dy := div_pos hy0 hmdy
      have heqy : y + y / -dy * dy = ((0 : ℤ) : ℝ) := by
        push_cast
        field_simp
      have hxa : 0 < x + y / -dy * dx := by
        nlinarith [mul_pos htr hdx]
      have hxb : x + y / -dy * dx < (wwZ : ℝ) := by
        have hlt : y * dx / -dy < (wwZ : ℝ) - x := by
          rw [div_lt_iff₀ hmdy]
          linarith
        have : y / -dy * dx = y * dx / -dy := by
          ring
        linarith
      have hT := hwall_some x y dx dy 0 wwZ hW hdy.ne (y / -dy) htr heqy
        hxa hxb
      have hR : intersectD x y dx dy ⟨wwZ, 0, wwZ, hhZ⟩ = none :=
        vwall_none x y dx dy wwZ hhZ hH (fun tw tr h1 h2 h3 h4 h5 h6 => by
          have key : tw * (hhZ : ℝ) * dx =
              y * dx - ((wwZ : ℝ) - x) * -dy := by
            linear_combination dy * h5 - dx * h6
          nlinarith [mul_pos hH hdx, h3])
      left
      simp [mkBoundaryWalls, List.countP_cons, hL, hT, hR, hB]
  · -- dx > 0, dy = 0: the right wall alone
    subst hdy
    have htr : 0 < ((wwZ : ℝ) - x) / dx := div_pos (by linarith) hdx
    have heqx : x + ((wwZ : ℝ) - x) / dx * dx = ((wwZ : ℤ) : ℝ) := by
      field_simp
    have hR := vwall_some x y dx 0 wwZ hhZ hH hdx.ne'
      (((wwZ : ℝ) - x) / dx) htr heqx
      (by rw [mul_zero]; linarith) (by rw [mul_zero]; linarith)
    have hL : intersectD x y dx 0 ⟨0, 0, 0, hhZ⟩ = none :=
      vwall_none x y dx 0 0 hhZ hH (fun tw tr h1 h2 h3 h4 h5 h6 => by
        push_cast at h5
        nlinarith [mul_pos h4 hdx])
    have hT : intersectD x y dx 0 ⟨0, 0, wwZ, 0⟩ = none :=
      hwall_none x y dx 0 0 wwZ hW (fun tw tr h1 h2 h3 h4 h5 h6 =>
        h1 rfl)
    have hB : intersectD x y dx 0 ⟨0, hhZ, wwZ, hhZ⟩ = none :=
      hwall_none x y dx 0 hhZ wwZ hW (fun tw tr h1 h2 h3 h4 h5 h6 =>
        h1 rfl)
    left
    simp [mkBoundaryWalls, List.countP_cons, hL, hT, hR, hB]
  · -- dx > 0, dy > 0: candidates are right and bottom; corner (W, H)
    have hL : intersectD x y dx dy ⟨0, 0, 0, hhZ⟩ = none :=
      vwall_none x y dx dy 0 hhZ hH (fun tw tr h1 h2 h3 h4 h5 h6 => by
        push_cast at h5
        nlinarith [mul_pos h4 hdx])
    have hT : intersectD x y dx dy ⟨0, 0, wwZ, 0⟩ = none :=
      hwall_none x y dx dy 0 wwZ hW (fun tw tr h1 h2 h3 h4 h5 h6 => by
        push_cast at h6
        nlinarith [mul_pos h4 hdy])
    rcases lt_trichotomy (((wwZ : ℝ) - x) * dy) (((hhZ : ℝ) - y) * dx)
      with hc | hc | hc
    · -- exits through the right wall first
      have htr : 0 < ((wwZ : ℝ) - x) / dx := div_pos (by linarith) hdx
      have heqx : x + ((wwZ : ℝ) - x) / dx * dx = ((wwZ : ℤ) : ℝ) := by
        field_simp
      have hya : 0 < y + ((wwZ : ℝ) - x) / dx * dy := by
        nlinarith [mul_pos htr hdy]
      have hyb : y + ((wwZ : ℝ) - x) / dx * dy < (hhZ : ℝ) := by
        have hlt : ((wwZ : ℝ) - x) * dy / dx < (hhZ : ℝ) - y := by
          rw [div_lt_iff₀ hdx]
          linarith
        have : ((wwZ : ℝ) - x) / dx * dy = ((wwZ : ℝ) - x) * dy / dx := by
          ring
        linarith
      have hR := vwall_some x y dx dy wwZ hhZ hH hdx.ne'
        (((wwZ : ℝ) - x) / dx) htr heqx hya hyb
      have hB : intersectD x y dx dy ⟨0, hhZ, wwZ, hhZ⟩ = none :=
        hwall_none x y dx dy hhZ wwZ hW (fun tw tr h1 h2 h3 h4 h5 h6 => by
          have key : tw * (wwZ : ℝ) * dy =
              x * dy + ((hhZ : ℝ) - y) * dx := by
            linear_combination dx * h6 - dy * h5
          nlinarith [mul_pos hW hdy, h3])
      left
      simp [mkBoundaryWalls, List.countP_cons, hL, hT, hR, hB]
    · -- exits exactly through the corner (W, H)
      have hR : intersectD x y dx dy ⟨wwZ, 0, wwZ, hhZ⟩ = none :=
        vwall_none x y dx dy wwZ hhZ hH (fun tw tr h1 h2 h3 h4 h5 h6 => by
          have key : tw * (hhZ : ℝ) * dx =
              y * dx + ((wwZ : ℝ) - x) * dy := by
            linear_combination dy * h5 - dx * h6
          nlinarith [mul_pos hH hdx, h3])
      have hB : intersectD x y dx dy ⟨0, hhZ, wwZ, hhZ⟩ = none :=
        hwall_none x y dx dy hhZ wwZ hW (fun tw tr h1 h2 h3 h4 h5 h6 => by
          have key : tw * (wwZ : ℝ) * dy =
              x * dy + ((hhZ : ℝ) - y) * dx := by
            linear_combination dx * h6 - dy * h5
          nlinarith [mul_pos hW hdy, h3])
      right
      constructor
      · refine ⟨((wwZ : ℝ) - x) / dx, div_pos (by linarith) hdx,
          Or.inr ?_, Or.inr ?_⟩
        · field_simp
        · have ht : ((wwZ : ℝ) - x) / dx * dy = (hhZ : ℝ) - y := by
            rw [div_mul_eq_mul_div, div_eq_iff hdx.ne']
            linarith
          linarith [ht]
      · simp [mkBoundaryWalls, List.countP_cons, hL, hT, hR, hB]
    · -- exits through the bottom wall first
      have htr : 0 < ((hhZ : ℝ) - y) / dy := div_pos (by linarith) hdy
      have heqy : y + ((hhZ : ℝ) - y) / dy * dy = ((hhZ : ℤ) : ℝ) := by
        field_simp
      have hxa : 0 < x + ((hhZ : ℝ) - y) / dy * dx := by
        nlinarith [mul_pos htr hdx]
      have hxb : x + ((hhZ : ℝ) - y) / dy * dx < (wwZ : ℝ) := by
        have hlt : ((hhZ : ℝ) - y) * dx / dy < (wwZ : ℝ) - x := by
          rw [div_lt_iff₀ hdy]
          linarith
        have : ((hhZ : ℝ) - y) / dy * dx = ((hhZ : ℝ) - y) * dx / dy := by
          ring
        linarith
      have hB := hwall_some x y dx dy hhZ wwZ hW hdy.ne'
        (((hhZ : ℝ) - y) / dy) htr heqy hxa hxb
      have hR : intersectD x y dx dy ⟨wwZ, 0, wwZ, hhZ⟩ = none :=
        vwall_none x y dx dy wwZ hhZ hH (fun tw tr h1 h2 h3 h4 h5 h6 => by
          have key : tw * (hhZ : ℝ) * dx =
              y * dx + ((wwZ : ℝ) - x) * dy := by
            linear_combination dy * h5 - dx * h6
          nlinarith [mul_pos hH hdx, h3])
      left
      simp [mkBoundaryWalls, List.countP_cons, hL, hT, hR, hB]

/-- C8, amended: for a ray whose origin lies strictly inside the rectangle
of the four boundary walls, `Intersect` succeeds on exactly one boundary
wall — except that it succeeds on none of them precisely when the ray
leaves the rectangle exactly through a corner (any such direction, not
only an axis-aligned one). -/
theorem claim_C8 (mw mh : ℤ)
    (hw : (0 : ℝ) < ((mw - 1 : ℤ) : ℝ)) (hh : (0 : ℝ) < ((mh - 1 : ℤ) : ℝ))
    (r : Ray) (hx0 : 0 < r.x) (hx1 : r.x < ((mw - 1 : ℤ) : ℝ))
    (hy0 : 0 < r.y) (hy1 : r.y < ((mh - 1 : ℤ) : ℝ)) :
    hitCount r (mkBoundaryWalls (mw - 1) (mh - 1)) = 1 ∨
    ((∃ t : ℝ, 0 < t ∧
        (r.x + t * Real.cos r.angle = 0 ∨
         r.x + t * Real.cos r.angle = ((mw - 1 : ℤ) : ℝ)) ∧
        (r.y + t * Real.sin r.angle = 0 ∨
         r.y + t * Real.sin r.angle = ((mh - 1 : ℤ) : ℝ))) ∧
      hitCount r (mkBoundaryWalls (mw - 1) (mh - 1)) = 0) := by
  have hcnt : hitCount r (mkBoundaryWalls (mw - 1) (mh - 1)) =
      List.countP
        (fun w => (intersectD r.x r.y (Real.cos r.angle)
          (Real.sin r.angle) w).isSome)
        (mkBoundaryWalls (mw - 1) (mh - 1)) := by
    unfold hitCount
    have hfn : (fun w : Wall => (r.intersect w).isSome) =
        (fun w : Wall => (intersectD r.x r.y (Real.cos r.angle)
          (Real.sin r.angle) w).isSome) := by
      funext w
      rw [Ray.intersect_def]
    rw [hfn]
  have hne : ¬(Real.cos r.angle = 0 ∧ Real.sin r.angle = 0) := by
    rintro ⟨hc, hs⟩
    have h1 := Real.sin_sq_add_cos_sq r.angle
    rw [hc, hs] at h1
    norm_num at h1
  rw [hcnt]
  exact boundary_exclusive (mw - 1) (mh - 1) r.x r.y _ _ hw hh
    hx0 hx1 hy0 hy1 hne

/-- Witness for C8 (amended): the center ray of the real scene. -/
theorem claim_C8_witness :
    hitCount ⟨160, 120, 0⟩ (mkBoundaryWalls (320 - 1) (240 - 1)) = 1 ∨
    ((∃ t : ℝ, 0 < t ∧
        ((160 : ℝ) + t * Real.cos (0 : ℝ) = 0 ∨
         (160 : ℝ) + t * Real.cos (0 : ℝ) = ((320 - 1 : ℤ) : ℝ)) ∧
        ((120 : ℝ) + t * Real.sin (0 : ℝ) = 0 ∨
         (120 : ℝ) + t * Real.sin (0 : ℝ) = ((240 - 1 : ℤ) : ℝ))) ∧
      hitCount ⟨160, 120, 0⟩ (mkBoundaryWalls (320 - 1) (240 - 1)) = 0) :=
  claim_C8 320 240 (by norm_num) (by norm_num) ⟨160, 120, 0⟩
    (by norm_num) (by norm_num) (by norm_num) (by norm_num)

/-- C8, counterexample: a ray at 45 degrees from (317, 237) — strictly
inside the map, pointing at neither map axis — exits exactly through the
corner (319, 239) and hits zero boundary walls, although the claim allows
zero hits only for rays pointing along a map axis. -/
theorem claim_C8_counterexample :
    ((0 : ℝ) < 317 ∧ (317 : ℝ) < ((map_width - 1 : ℤ) : ℝ) ∧
     (0 : ℝ) < 237 ∧ (237 : ℝ) < ((map_height - 1 : ℤ) : ℝ)) ∧
    Real.cos (Real.pi / 4) ≠ 0 ∧ Real.sin (Real.pi / 4) ≠ 0 ∧
    hitCount ⟨317, 237, Real.pi / 4⟩ boundaryWalls = 0 := by
  have h319 : ((map_width - 1 : ℤ) : ℝ) = 319 := by norm_num [map_width]
  have h239 : ((map_height - 1 : ℤ) : ℝ) = 239 := by norm_num [map_height]
  have hs0 : (0 : ℝ) < Real.sqrt 2 := Real.sqrt_pos.mpr (by norm_num)
  have hsp : (0 : ℝ) < Real.sqrt 2 / 2 := by linarith
  have hcos : Real.cos (Real.pi / 4) = Real.sqrt 2 / 2 := Real.cos_pi_div_four
  have hsin : Real.sin (Real.pi / 4) = Real.sqrt 2 / 2 := Real.sin_pi_div_four
  refine ⟨⟨by norm_num, by rw [h319]; norm_num, by norm_num,
    by rw [h239]; norm_num⟩, by rw [hcos]; exact hsp.ne',
    by rw [hsin]; exact hsp.ne', ?_⟩
  have hcnt : hitCount ⟨317, 237, Real.pi / 4⟩ boundaryWalls =
      List.countP
        (fun w => (intersectD 317 237 (Real.sqrt 2 / 2)
          (Real.sqrt 2 / 2) w).isSome)
        (mkBoundaryWalls (map_width - 1) (map_height - 1)) := by
    unfold hitCount boundaryWalls
    have hfn : (fun w : Wall =>
        ((⟨317, 237, Real.pi / 4⟩ : Ray).intersect w).isSome) =
        (fun w : Wall => (intersectD 317 237 (Real.sqrt 2 / 2)
          (Real.sqrt 2 / 2) w).isSome) := by
      funext w
      rw [Ray.intersect_def]
      show (intersectD 317 237 (Real.cos (Real.pi / 4))
        (Real.sin (Real.pi / 4)) w).isSome = _
      rw [hcos, hsin]
    rw [hfn]
  rw [hcnt]
  have hL : intersectD 317 237 (Real.sqrt 2 / 2) (Real.sqrt 2 / 2)
      ⟨0, 0, 0, map_height - 1⟩ = none :=
    vwall_none _ _ _ _ 0 (map_height - 1) (by rw [h239]; norm_num)
      (fun tw tr h1 h2 h3 h4 h5 h6 => by
        push_cast at h5
        nlinarith [mul_pos h4 hsp])
  have hT : intersectD 317 237 (Real.sqrt 2 / 2) (Real.sqrt 2 / 2)
      ⟨0, 0, map_width - 1, 0⟩ = none :=
    hwall_none _ _ _ _ 0 (map_width - 1) (by rw [h319]; norm_num)
      (fun tw tr h1 h2 h3 h4 h5 h6 => by
        push_cast at h6
        nlinarith [mul_pos h4 hsp])
  have hR : intersectD 317 237 (Real.sqrt 2 / 2) (Real.sqrt 2 / 2)
      ⟨map_width - 1, 0, map_width - 1, map_height - 1⟩ = none :=
    vwall_none _ _ _ _ (map_width - 1) (map_height - 1)
      (by rw [h239]; norm_num)
      (fun tw tr h1 h2 h3 h4 h5 h6 => by
        rw [h319] at h5
        rw [h239] at h6
        linarith)
  have hB : intersectD 317 237 (Real.sqrt 2 / 2) (Real.sqrt 2 / 2)
      ⟨0, map_height - 1, map_width - 1, map_height - 1⟩ = none :=
    hwall_none _ _ _ _ (map_height - 1) (map_width - 1)
      (by rw [h319]; norm_num)
      (fun tw tr h1 h2 h3 h4 h5 h6 => by
        rw [h319] at h5
        rw [h239] at h6
        linarith)
  simp [mkBoundaryWalls, List.countP_cons, hL, hT, hR, hB]

end Raycaster
